import Mathlib

/-!
Verification development for the duckdb_protobuf extension.

Shallow embedding of the core components of the repository:

* the varint codec (src/packages/duckdb_protobuf/src/varint.rs),
* the length-framed record reader (src/packages/duckdb_protobuf/src/io.rs),
* the streaming protobuf-to-columnar projector (src/packages/duckdb_protobuf/src/gen.rs),
* the filename synthetic-column block of the produce step
  (src/packages/duckdb_protobuf/src/vtab.rs).

Machine integers are modelled as Nat with explicit truncation (mod 2 ^ w)
where the source truncates; byte buffers are List Nat (each element a byte
value); fallible code returns Except; a Rust panic (slice bounds check) is
a distinguished outcome, kept separate from returned errors; the duckdb
vector buffers written through the C ABI are modelled as explicit maps
from a vector identity and row index to the written value.
-/

namespace DuckdbProtobuf

instance {ε α : Type} [DecidableEq ε] [DecidableEq α] : DecidableEq (Except ε α)
  | .ok a, .ok b =>
    if h : a = b then isTrue (by rw [h]) else isFalse (by simp [h])
  | .error a, .error b =>
    if h : a = b then isTrue (by rw [h]) else isFalse (by simp [h])
  | .ok _, .error _ => isFalse (by simp)
  | .error _, .ok _ => isFalse (by simp)

/-! ### Association lists

Rust HashMap values used by the projector are modelled as association
lists with last-insert-wins lookup (insert overwrites the key).
-/

def alGet {α β : Type} [DecidableEq α] (m : List (α × β)) (k : α) : Option β :=
  (m.find? (fun p => p.1 = k)).map (fun p => p.2)

def alInsert {α β : Type} [DecidableEq α] (m : List (α × β)) (k : α) (v : β) :
    List (α × β) :=
  (k, v) :: m.filter (fun p => ¬ p.1 = k)

/-! ### Varint codec — src/packages/duckdb_protobuf/src/varint.rs

The Rust code is generic over a DecodeVarint trait with two impls (u32 and
u64) differing in MAX_ENCODED_LEN, LAST_BYTE_MAX_VALUE and in the
truncation performed by from_u64. VarintType packages those constants.
-/

structure VarintType where
  maxEncodedLen : Nat
  lastByteMaxValue : Nat
  widthBits : Nat
deriving DecidableEq

/-- Constants of impl DecodeVarint for u64. -/
def u64VT : VarintType := { maxEncodedLen := 10, lastByteMaxValue := 0x01, widthBits := 64 }

/-- Constants of impl DecodeVarint for u32. -/
def u32VT : VarintType := { maxEncodedLen := 5, lastByteMaxValue := 0x0f, widthBits := 32 }

/-- Model of D::from_u64: the cast u64 -> D truncates to the target width. -/
def VarintType.fromU64 (D : VarintType) (v : Nat) : Nat := v % 2 ^ D.widthBits

/-- Loop body of decode_varint_full: iterates over the bytes with index i
and accumulator r; mirrors the source control flow exactly.  Returns
.ok none when the slice ends before the varint does (the for loop falls
through), .error () for IncorrectVarintError. -/
def decodeVarintFullAux (D : VarintType) : List Nat → Nat → Nat →
    Except Unit (Option (Nat × Nat))
  | [], _, _ => .ok none
  | b :: rest, i, r =>
    if i = D.maxEncodedLen - 1 then
      if D.lastByteMaxValue < b then .error ()
      else .ok (some (D.fromU64 (r ||| b <<< (i * 7)), i + 1))
    else
      let r2 := r ||| (b &&& 0x7f) <<< (i * 7)
      if b < 0x80 then .ok (some (D.fromU64 r2, i + 1))
      else decodeVarintFullAux D rest (i + 1) r2

/-- decode_varint_full: decode a varint, returning the decoded value and
decoded byte count. -/
def decodeVarintFull (D : VarintType) (rem : List Nat) : Except Unit (Option (Nat × Nat)) :=
  decodeVarintFullAux D rem 0 0

/-- decode_varint: fast paths for the 1- and 2-byte cases (the source
tests buf.len() and the first two bytes), falling back to
decode_varint_full. -/
def decodeVarint (D : VarintType) (buf : List Nat) : Except Unit (Option (Nat × Nat)) :=
  if 1 ≤ buf.length ∧ buf.getD 0 0 < 0x80 then
    .ok (some (D.fromU64 (buf.getD 0 0), 1))
  else if 2 ≤ buf.length ∧ buf.getD 1 0 < 0x80 then
    .ok (some (D.fromU64 ((buf.getD 0 0 &&& 0x7f) ||| (buf.getD 1 0) <<< 7), 2))
  else
    decodeVarintFull D buf

/-! Basic facts about the varint decoder. -/

theorem decodeVarintFullAux_consumed (D : VarintType) :
    ∀ (bs : List Nat) (i r v c : Nat),
      decodeVarintFullAux D bs i r = .ok (some (v, c)) →
      i + 1 ≤ c ∧ c ≤ i + bs.length := by
  intro bs
  induction bs with
  | nil => intro i r v c h; simp [decodeVarintFullAux] at h
  | cons b rest ih =>
    intro i r v c h
    simp only [decodeVarintFullAux] at h
    split at h
    · split at h
      · simp at h
      · simp only [Except.ok.injEq, Option.some.injEq, Prod.mk.injEq] at h
        simp only [List.length_cons]
        omega
    · split at h
      · simp only [Except.ok.injEq, Option.some.injEq, Prod.mk.injEq] at h
        simp only [List.length_cons]
        omega
      · have := ih (i + 1) _ v c h
        simp only [List.length_cons]
        omega

theorem decodeVarint_consumed (D : VarintType) (buf : List Nat) (v c : Nat)
    (h : decodeVarint D buf = .ok (some (v, c))) :
    1 ≤ c ∧ c ≤ buf.length := by
  unfold decodeVarint at h
  split at h
  · rename_i h1
    simp only [Except.ok.injEq, Option.some.injEq, Prod.mk.injEq] at h
    omega
  · split at h
    · rename_i h1 h2
      simp only [Except.ok.injEq, Option.some.injEq, Prod.mk.injEq] at h
      omega
    · have := decodeVarintFullAux_consumed D buf 0 0 v c h
      omega

theorem decodeVarintFullAux_lt (D : VarintType) :
    ∀ (bs : List Nat) (i r v c : Nat),
      decodeVarintFullAux D bs i r = .ok (some (v, c)) →
      v < 2 ^ D.widthBits := by
  intro bs
  induction bs with
  | nil => intro i r v c h; simp [decodeVarintFullAux] at h
  | cons b rest ih =>
    intro i r v c h
    simp only [decodeVarintFullAux] at h
    split at h
    · split at h
      · simp at h
      · simp only [Except.ok.injEq, Option.some.injEq, Prod.mk.injEq] at h
        obtain ⟨h1, _⟩ := h
        subst h1
        exact Nat.mod_lt _ (Nat.pos_pow_of_pos _ (by omega))
    · split at h
      · simp only [Except.ok.injEq, Option.some.injEq, Prod.mk.injEq] at h
        obtain ⟨h1, _⟩ := h
        subst h1
        exact Nat.mod_lt _ (Nat.pos_pow_of_pos _ (by omega))
      · exact ih (i + 1) _ v c h

theorem decodeVarint_lt (D : VarintType) (buf : List Nat) (v c : Nat)
    (h : decodeVarint D buf = .ok (some (v, c))) :
    v < 2 ^ D.widthBits := by
  unfold decodeVarint at h
  split at h
  · simp only [Except.ok.injEq, Option.some.injEq, Prod.mk.injEq] at h
    obtain ⟨h1, _⟩ := h
    subst h1
    exact Nat.mod_lt _ (Nat.pos_pow_of_pos _ (by omega))
  · split at h
    · simp only [Except.ok.injEq, Option.some.injEq, Prod.mk.injEq] at h
      obtain ⟨h1, _⟩ := h
      subst h1
      exact Nat.mod_lt _ (Nat.pos_pow_of_pos _ (by omega))
    · exact decodeVarintFullAux_lt D _ 0 0 v c h

/-- Appending bytes after a varint that already decoded does not change
the decode (prefix determinism of the general decoder). -/
theorem decodeVarintFullAux_append (D : VarintType) :
    ∀ (bs ext : List Nat) (i r v c : Nat),
      decodeVarintFullAux D bs i r = .ok (some (v, c)) →
      decodeVarintFullAux D (bs ++ ext) i r = .ok (some (v, c)) := by
  intro bs
  induction bs with
  | nil => intro ext i r v c h; simp [decodeVarintFullAux] at h
  | cons b rest ih =>
    intro ext i r v c h
    simp only [decodeVarintFullAux, List.cons_append] at h ⊢
    split at h
    · split at h
      · simp at h
      · rename_i h1 h2
        simp only [if_pos h1, if_neg h2]
        exact h
    · rename_i h1
      split at h
      · rename_i h2
        simp only [if_neg h1, if_pos h2]
        exact h
      · rename_i h2
        simp only [if_neg h1, if_neg h2]
        exact ih ext (i + 1) _ v c h

theorem decodeVarint_append (D : VarintType) (hD : 3 ≤ D.maxEncodedLen)
    (buf ext : List Nat) (v c : Nat)
    (h : decodeVarint D buf = .ok (some (v, c))) :
    decodeVarint D (buf ++ ext) = .ok (some (v, c)) := by
  unfold decodeVarint at h ⊢
  split at h
  · rename_i h1
    obtain ⟨hlen, hb⟩ := h1
    rw [if_pos ⟨by simp; omega, by rwa [List.getD_append _ _ _ _ (by omega)]⟩]
    rwa [List.getD_append _ _ _ _ (by omega)]
  · rename_i h1
    split at h
    · rename_i h2
      obtain ⟨hlen, hb⟩ := h2
      have hg0 : (buf ++ ext).getD 0 0 = buf.getD 0 0 :=
        List.getD_append _ _ _ _ (by omega)
      have hg1 : (buf ++ ext).getD 1 0 = buf.getD 1 0 :=
        List.getD_append _ _ _ _ (by omega)
      rw [if_neg (by rw [hg0]; intro hc; exact h1 ⟨by omega, hc.2⟩)]
      rw [if_pos ⟨by simp; omega, by rwa [hg1]⟩]
      rwa [hg0, hg1]
    · rename_i h2
      match buf with
      | [] => simp [decodeVarintFull, decodeVarintFullAux] at h
      | [b0] =>
        exfalso
        have hb0 : ¬ b0 < 0x80 := fun hc => h1 ⟨by simp, by simpa using hc⟩
        have hne : ¬ (0 = D.maxEncodedLen - 1) := by omega
        simp [decodeVarintFull, decodeVarintFullAux, hne, hb0] at h
      | b0 :: b1 :: t2 =>
        have hb0 : ¬ b0 < 0x80 := fun hc => h1 ⟨by simp, by simpa using hc⟩
        have hb1 : ¬ b1 < 0x80 := fun hc => h2 ⟨by simp, by simpa using hc⟩
        rw [if_neg (by simpa using hb0)]
        rw [if_neg (by intro hc; exact hb1 (by simpa using hc.2))]
        exact decodeVarintFullAux_append D (b0 :: b1 :: t2) ext 0 0 v c h

theorem and_7f_eq_self (b : Nat) (hb : b < 0x80) : b &&& 0x7f = b := by
  have h := Nat.and_pow_two_sub_one_eq_mod b 7
  norm_num at h
  rw [h]
  exact Nat.mod_eq_of_lt hb

/-- The fast paths agree with the general decoder whenever the type has at
least three encoded bytes (both source impls do). -/
theorem decodeVarint_eq_full (D : VarintType) (hD : 3 ≤ D.maxEncodedLen) (buf : List Nat) :
    decodeVarint D buf = decodeVarintFull D buf := by
  have h0ne : ¬ ((0 : Nat) = D.maxEncodedLen - 1) := by omega
  have h1ne : ¬ ((1 : Nat) = D.maxEncodedLen - 1) := by omega
  unfold decodeVarint
  split
  · rename_i hc
    obtain ⟨hl, hb⟩ := hc
    match buf with
    | [] => simp at hl
    | b0 :: tail =>
      simp only [List.getD_cons_zero] at hb ⊢
      simp [decodeVarintFull, decodeVarintFullAux, h0ne, hb, and_7f_eq_self b0 hb,
        Nat.shiftLeft_zero, Nat.zero_or]
  · split
    · rename_i hc1 hc2
      obtain ⟨hl, hb1⟩ := hc2
      match buf with
      | [] => simp at hl
      | [b0] => simp at hl
      | b0 :: b1 :: t =>
        simp only [List.getD_cons_zero, List.getD_cons_succ] at hb1 ⊢
        have hb0 : ¬ b0 < 0x80 := fun hc => hc1 ⟨by simp, by simpa using hc⟩
        simp [decodeVarintFull, decodeVarintFullAux, h0ne, h1ne, hb0, hb1,
          and_7f_eq_self b1 hb1, Nat.shiftLeft_zero, Nat.zero_or]
    · rfl

/-- C7: for every byte slice and both target widths (u32 and u64),
decode_varint returns exactly the same result as decode_varint_full: the
same decoded value and consumed byte count, the same too-short indication
(.ok none), or the same error, so the 1- and 2-byte fast paths are
observationally equivalent to the general decoder. -/
theorem c7_fast_paths_equiv_full (buf : List Nat) :
    decodeVarint u32VT buf = decodeVarintFull u32VT buf ∧
    decodeVarint u64VT buf = decodeVarintFull u64VT buf :=
  ⟨decodeVarint_eq_full u32VT (by norm_num [u32VT]) buf,
    decodeVarint_eq_full u64VT (by norm_num [u64VT]) buf⟩

/-- C6: the 32-bit varint decode rejects a fifth byte whose high nibble is
set (which also rejects every encoding that continues past five bytes, in
particular a tenth byte); the varint encoding of 2 ^ 32 - 1 decodes into
u32 as that value; the varint encoding of 2 ^ 32 is a hard error for u32;
and the varint encoding of 2 ^ 64 - 1 decodes into u64 as that value. -/
theorem c6_varint32_width_limits :
    (∀ (b0 b1 b2 b3 b4 : Nat) (rest : List Nat),
      0x80 ≤ b0 → 0x80 ≤ b1 → 0x80 ≤ b2 → 0x80 ≤ b3 → 0x0f < b4 →
      decodeVarint u32VT (b0 :: b1 :: b2 :: b3 :: b4 :: rest) = .error ()) ∧
    decodeVarint u32VT [0xff, 0xff, 0xff, 0xff, 0x0f] = .ok (some (2 ^ 32 - 1, 5)) ∧
    decodeVarint u32VT [0x80, 0x80, 0x80, 0x80, 0x10] = .error () ∧
    decodeVarint u64VT [0xff, 0xff, 0xff, 0xff, 0xff, 0xff, 0xff, 0xff, 0xff, 0x01] =
      .ok (some (2 ^ 64 - 1, 10)) := by
  refine ⟨?_, by decide, by decide, by decide⟩
  intro b0 b1 b2 b3 b4 rest h0 h1 h2 h3 h4
  have hb0 : ¬ b0 < 0x80 := by omega
  have hb1 : ¬ b1 < 0x80 := by omega
  have hb2 : ¬ b2 < 0x80 := by omega
  have hb3 : ¬ b3 < 0x80 := by omega
  simp [decodeVarint, decodeVarintFull, decodeVarintFullAux, u32VT, hb0, hb1, hb2, hb3, h4]

/-- Witness for C6: the general clause applied at a concrete five-byte
continuation run whose fifth byte has a high nibble bit set. -/
theorem c6_varint32_width_limits_witness :
    decodeVarint u32VT [0x80, 0x90, 0xa0, 0xb0, 0x20, 0x07] = .error () :=
  c6_varint32_width_limits.1 0x80 0x90 0xa0 0xb0 0x20 [0x07]
    (by decide) (by decide) (by decide) (by decide) (by decide)

/-! ### Length-framed record reader — src/packages/duckdb_protobuf/src/io.rs

LengthDelimitedRecordsReader drives a CodedInputStream over the open
file.  The stream of unread file bytes is modelled as a List Nat.  An io
error is only observed through its kind: ErrorKind::UnexpectedEof versus
everything else.
-/

inductive IoErrorKind
  | unexpectedEof
  | otherError
deriving DecidableEq

/-- Model of io::Read::read_exact: either consumes exactly n bytes or
fails with an UnexpectedEof error. -/
def readExact (stream : List Nat) (n : Nat) : Except IoErrorKind (List Nat × List Nat) :=
  if n ≤ stream.length then .ok (stream.take n, stream.drop n)
  else .error .unexpectedEof

/-- Model of ReadBytesExt::read_u32 with BigEndian byte order. -/
def readU32BE (stream : List Nat) : Except IoErrorKind (Nat × List Nat) :=
  match readExact stream 4 with
  | .error e => .error e
  | .ok (bs, rest) => .ok (bs.foldl (fun acc b => acc * 256 + b) 0, rest)

/-- Modelled from the behaviour of CodedInputStream::read_raw_varint64 in
the rust-protobuf dependency: reads up to ten continuation bytes,
accumulating into a u64; running out of input mid-varint (including at the
very first byte) is an UnexpectedEof io error, while an eleventh
continuation byte is an incorrect-varint error of a different kind. -/
def readRawVarint64Aux : List Nat → Nat → Nat → Except IoErrorKind (Nat × List Nat)
  | _, 10, _ => .error .otherError
  | [], _, _ => .error .unexpectedEof
  | b :: rest, i, acc =>
    let acc2 := (acc ||| (b &&& 0x7f) <<< (i * 7)) % 2 ^ 64
    if b < 0x80 then .ok (acc2, rest) else readRawVarint64Aux rest (i + 1) acc2

/-- CodedInputStream::read_raw_varint32: read_raw_varint64 truncated to
u32. -/
def readRawVarint32 (stream : List Nat) : Except IoErrorKind (Nat × List Nat) :=
  match readRawVarint64Aux stream 0 0 with
  | .error e => .error e
  | .ok (v, rest) => .ok (v % 2 ^ 32, rest)

inductive DelimitedLengthKind
  | bigEndianFixed
  | varint
deriving DecidableEq

/-- LengthDelimitedRecordsReader::get_next: read the length prefix in the
configured framing, then read exactly that many payload bytes.  Returns
the record bytes and the rest of the file stream. -/
def getNext (kind : DelimitedLengthKind) (stream : List Nat) :
    Except IoErrorKind (List Nat × List Nat) :=
  match kind with
  | .bigEndianFixed =>
    match readU32BE stream with
    | .error e => .error e
    | .ok (len, rest) => readExact rest len
  | .varint =>
    match readRawVarint32 stream with
    | .error e => .error e
    | .ok (len, rest) => readExact rest len

/-- LengthDelimitedRecordsReader::try_get_next: an UnexpectedEof error of
get_next is turned into a normal end of stream (None); every other error
propagates. -/
def tryGetNext (kind : DelimitedLengthKind) (stream : List Nat) :
    Except IoErrorKind (Option (List Nat × List Nat)) :=
  match getNext kind stream with
  | .ok it => .ok (some it)
  | .error e => if e = .unexpectedEof then .ok none else .error e

/-- Big-endian 4-byte encoding of a u32 length. -/
def beBytes4 (n : Nat) : List Nat :=
  [n / 2 ^ 24 % 256, n / 2 ^ 16 % 256, n / 2 ^ 8 % 256, n % 256]

theorem readU32BE_beBytes4 (n : Nat) (hn : n < 2 ^ 32) (pre : List Nat) :
    readU32BE (beBytes4 n ++ pre) = .ok (n, pre) := by
  simp only [readU32BE, readExact, beBytes4, List.cons_append, List.nil_append,
    List.length_cons]
  rw [if_pos (by omega)]
  simp only [List.take_succ_cons, List.take_zero, List.drop_succ_cons, List.drop_zero,
    List.foldl_cons, List.foldl_nil]
  have : ((((0 * 256 + n / 2 ^ 24 % 256) * 256 + n / 2 ^ 16 % 256) * 256 +
      n / 2 ^ 8 % 256) * 256 + n % 256) = n := by omega
  rw [this]

/-- C1 counterexample: a BigEndianFixed file whose declared length (5)
exceeds the remaining bytes (2).  try_get_next reports a normal end of
stream (None), not an error, refuting the claim that an EOF partway
through a payload fails chunk production with an unexpected-eof error. -/
theorem c1_truncated_payload_is_silent_eof :
    tryGetNext .bigEndianFixed [0, 0, 0, 5, 1, 2] = .ok none := by decide

/-- C1 amended: a clean EOF before any length bytes ends the stream
normally, and an EOF partway through a length prefix or partway through a
payload equally ends the stream normally (try_get_next maps every
UnexpectedEof from get_next to None); in particular any BigEndianFixed
frame whose declared length exceeds the remaining bytes yields a normal
end of stream rather than an error. -/
theorem c1_eof_handling :
    (∀ kind, tryGetNext kind [] = .ok none) ∧
    (∀ kind stream, getNext kind stream = .error .unexpectedEof →
      tryGetNext kind stream = .ok none) ∧
    (∀ (n : Nat) (pre : List Nat), pre.length < n → n < 2 ^ 32 →
      tryGetNext .bigEndianFixed (beBytes4 n ++ pre) = .ok none) := by
  refine ⟨by intro kind; cases kind <;> decide, ?_, ?_⟩
  · intro kind stream h
    simp [tryGetNext, h]
  · intro n pre hlen hn
    have hget : getNext .bigEndianFixed (beBytes4 n ++ pre) = .error .unexpectedEof := by
      simp only [getNext, readU32BE_beBytes4 n hn pre, readExact]
      rw [if_neg (by omega)]
    simp [tryGetNext, hget]

/-- Witness for C1: the amended theorem applied at a concrete truncated
BigEndianFixed frame (declared length 7, three payload bytes). -/
theorem c1_eof_handling_witness :
    tryGetNext .bigEndianFixed (beBytes4 7 ++ [9, 9, 9]) = .ok none :=
  c1_eof_handling.2.2 7 [9, 9, 9] (by decide) (by decide)

/-! ### Projector data model — src/packages/duckdb_protobuf/src/gen.rs and
src/packages/duckdb_protobuf/src/read.rs

Column keys identify list columns in the chunk-wide ledger.  gen.rs builds
them from field numbers only (ColumnKey::field).  Vectors handed out by
the duckdb C ABI are identified by their path from the chunk root
(duckdb_data_chunk_get_vector, duckdb_struct_vector_get_child,
duckdb_list_vector_get_child); the writes performed through the ABI are
recorded per vector and row.
-/

inductive ColumnKeyElement
  | field (fieldTag : Nat)
  | list
deriving DecidableEq

structure ColumnKey where
  elements : List ColumnKeyElement
deriving DecidableEq

/-- ColumnKey::field (gen.rs call sites pass the field number). -/
def ColumnKey.field (k : ColumnKey) (fieldTag : Nat) : ColumnKey :=
  ⟨k.elements ++ [.field fieldTag]⟩

def ColumnKey.empty : ColumnKey := ⟨[]⟩

inductive Vec
  | chunkVector (idx : Nat)
  | structChild (parent : Vec) (idx : Nat)
  | listChild (parent : Vec)
deriving DecidableEq

inductive CellValue
  | u32Val (v : Nat)
  | u64Val (v : Nat)
  | boolVal (b : Bool)
  | strVal (bytes : List Nat)
  | fixedVal (bytes : List Nat)
  | listEntry (off len : Nat)
deriving DecidableEq

/-- Observable content of the output chunk: the last value written to
each (vector, row) slot, the size set through duckdb_list_vector_set_size
per list vector, and the validity mask. -/
structure ChunkState where
  cells : Vec → Nat → Option CellValue
  listSize : Vec → Nat
  validity : Vec → Nat → Bool

def ChunkState.empty : ChunkState :=
  { cells := fun _ _ => none, listSize := fun _ => 0, validity := fun _ _ => true }

def ChunkState.writeCell (st : ChunkState) (v : Vec) (row : Nat) (val : CellValue) :
    ChunkState :=
  { st with cells := fun v2 r2 => if v2 = v ∧ r2 = row then some val else st.cells v2 r2 }

def ChunkState.setListSize (st : ChunkState) (v : Vec) (n : Nat) : ChunkState :=
  { st with listSize := fun v2 => if v2 = v then n else st.listSize v2 }

/-- duckdb_validity_set_row_invalid. -/
def ChunkState.setRowInvalid (st : ChunkState) (v : Vec) (row : Nat) : ChunkState :=
  { st with validity := fun v2 r2 => if v2 = v ∧ r2 = row then false else st.validity v2 r2 }

/-- gen.rs ParserState: the per-chunk column-offset ledger. -/
structure ParserState where
  columnState : List (ColumnKey × Nat)
deriving DecidableEq

def ParserState.new : ParserState := ⟨[]⟩

structure LocalRepeatedFieldState where
  length : Nat
  offset : Nat
deriving DecidableEq

/-- gen.rs LocalRepeatedFieldsState: per-row map from field tag to
(length, offset). -/
structure LocalRepeatedFieldsState where
  state : List (Nat × LocalRepeatedFieldState)
deriving DecidableEq

/-- Combined mutable state threaded through the projector: the ledger
(behind the &mut ParserState) and the chunk being written through the C
ABI. -/
structure PState where
  ps : ParserState
  chunk : ChunkState

inductive ParseError
  | incorrectVarint
  | unexpectedEof
  | unknownWireType (w : Nat)
  | groupsNotImplemented
deriving DecidableEq

/-- Outcome of running projector code: a returned error (anyhow::Result),
a Rust panic (the slice bounds checks in ParseContext::consume/next and
the leaf readers), or exhaustion of the Lean termination fuel (an
embedding device only; never reached from the canonical fuel). -/
inductive Failure
  | fail (e : ParseError)
  | panicked
  | fuelOut
deriving DecidableEq

/-- ParseContext::consume: self.bytes = &self.bytes[n..]; the slice
index panics when n exceeds the remaining length. -/
def consume (bytes : List Nat) (n : Nat) : Except Failure (List Nat) :=
  if n ≤ bytes.length then .ok (bytes.drop n) else .error .panicked

/-- The slice &bytes[..n] taken by ParseContext::next and read_string;
panics when n exceeds the remaining length. -/
def sliceTo (bytes : List Nat) (n : Nat) : Except Failure (List Nat) :=
  if n ≤ bytes.length then .ok (bytes.take n) else .error .panicked

/-- ParseContext::read_varint: decode, then consume the decoded byte
count.  IncorrectVarintError surfaces through the anyhow error return. -/
def ctxReadVarint (D : VarintType) (bytes : List Nat) :
    Except Failure (Option (Nat × List Nat)) :=
  match decodeVarint D bytes with
  | .error _ => .error (.fail .incorrectVarint)
  | .ok none => .ok none
  | .ok (some (v, c)) =>
    match consume bytes c with
    | .error e => .error e
    | .ok rest => .ok (some (v, rest))

/-- ParseContext::must_read_varint: a too-short slice becomes the
"unexpected eof" error. -/
def ctxMustReadVarint (D : VarintType) (bytes : List Nat) :
    Except Failure (Nat × List Nat) :=
  match ctxReadVarint D bytes with
  | .error e => .error e
  | .ok none => .error (.fail .unexpectedEof)
  | .ok (some r) => .ok r

inductive WireType
  | varint
  | fixed64
  | lengthDelimited
  | startGroup
  | endGroup
  | fixed32
deriving DecidableEq

/-- protobuf::rt::WireType::new over the three tag bits. -/
def WireType.new (v : Nat) : Option WireType :=
  match v with
  | 0 => some .varint
  | 1 => some .fixed64
  | 2 => some .lengthDelimited
  | 3 => some .startGroup
  | 4 => some .endGroup
  | 5 => some .fixed32
  | _ => none

/-- ParseContext::skip_wire_type.  Note the varint arm discards the
read_varint result, so a too-short varint at the end of the slice is not
an error here; the length-delimited arm must_reads the length and then
consumes it (panicking when it exceeds the remainder). -/
def skipWireType (bytes : List Nat) : WireType → Except Failure (List Nat)
  | .varint =>
    match ctxReadVarint u64VT bytes with
    | .error e => .error e
    | .ok none => .ok bytes
    | .ok (some (_, rest)) => .ok rest
  | .fixed64 => consume bytes 8
  | .fixed32 => consume bytes 4
  | .lengthDelimited =>
    match ctxMustReadVarint u64VT bytes with
    | .error e => .error e
    | .ok (len, rest) => consume rest len
  | .startGroup => .error (.fail .groupsNotImplemented)
  | .endGroup => .error (.fail .groupsNotImplemented)

/-- ParseContext::skip_tag. -/
def skipTag (bytes : List Nat) (tag : Nat) : Except Failure (List Nat) :=
  match WireType.new (tag &&& 0b111) with
  | none => .error (.fail (.unknownWireType (tag &&& 0b111)))
  | some w => skipWireType bytes w

/-- ParseContext::read_string: must_read the length, hand bytes[..len] to
duckdb_vector_assign_string_element_len, consume len. -/
def readString (bytes : List Nat) (chunk : ChunkState) (outputVector : Vec) (rowIdx : Nat) :
    Except Failure (List Nat × ChunkState) :=
  match ctxMustReadVarint u64VT bytes with
  | .error e => .error e
  | .ok (len, rest) =>
    match sliceTo rest len with
    | .error e => .error e
    | .ok s =>
      let chunk := chunk.writeCell outputVector rowIdx (.strVal s)
      match consume rest len with
      | .error e => .error e
      | .ok rest2 => .ok (rest2, chunk)

/-- ParseContext::read_fixed_bytes with const N: copy bytes[0..N] into
the typed slot, consume N. -/
def readFixedBytes (n : Nat) (bytes : List Nat) (chunk : ChunkState) (outputVector : Vec)
    (rowIdx : Nat) : Except Failure (List Nat × ChunkState) :=
  match sliceTo bytes n with
  | .error e => .error e
  | .ok s =>
    let chunk := chunk.writeCell outputVector rowIdx (.fixedVal s)
    match consume bytes n with
    | .error e => .error e
    | .ok rest => .ok (rest, chunk)

/-- ParseContext::read_varint_value: must_read a varint of the declared
width and store it in the typed slot (mk is the typed cell constructor). -/
def readVarintValue (D : VarintType) (mk : Nat → CellValue) (bytes : List Nat)
    (chunk : ChunkState) (outputVector : Vec) (rowIdx : Nat) :
    Except Failure (List Nat × ChunkState) :=
  match ctxMustReadVarint D bytes with
  | .error e => .error e
  | .ok (v, rest) => .ok (rest, chunk.writeCell outputVector rowIdx (mk v))

/-- ParseContext::read_bool_value: nonzero becomes true. -/
def readBoolValue (bytes : List Nat) (chunk : ChunkState) (outputVector : Vec) (rowIdx : Nat) :
    Except Failure (List Nat × ChunkState) :=
  match ctxMustReadVarint u64VT bytes with
  | .error e => .error e
  | .ok (v, rest) => .ok (rest, chunk.writeCell outputVector rowIdx (.boolVal (v != 0)))

/-! ### Descriptors (prost_reflect model)

Only the parts of a prost_reflect MessageDescriptor consulted by gen.rs
are modelled: the declared field list (in declaration order), each field
with its number, cardinality and kind, enum descriptors with their
numbered values.  Kinds not handled by parse_field collapse into the
unsupported constructor (the source wildcard arm returning Ok(false)).
-/

inductive Cardinality
  | optional
  | required
  | repeated
deriving DecidableEq

structure EnumValueDescriptor where
  number : Int
  name : List Nat
deriving DecidableEq

structure EnumDescriptor where
  values : List EnumValueDescriptor
deriving DecidableEq

/-- EnumDescriptor::get_value. -/
def EnumDescriptor.getValue (e : EnumDescriptor) (n : Int) : Option EnumValueDescriptor :=
  e.values.find? (fun v => v.number = n)

/-- EnumDescriptor::default_value: the first declared value. -/
def EnumDescriptor.defaultValue (e : EnumDescriptor) : EnumValueDescriptor :=
  e.values.headD { number := 0, name := [] }

mutual
inductive PKind
  | double
  | float
  | int32
  | int64
  | uint32
  | uint64
  | boolKind
  | stringKind
  | message (m : MessageDescriptor)
  | enumKind (e : EnumDescriptor)
  | unsupported

inductive MessageDescriptor
  | mk (fields : List FieldDesc)

inductive FieldDesc
  | mk (number : Nat) (card : Cardinality) (kind : PKind)
end

def MessageDescriptor.fields : MessageDescriptor → List FieldDesc
  | .mk fs => fs

def FieldDesc.number : FieldDesc → Nat
  | .mk n _ _ => n

def FieldDesc.card : FieldDesc → Cardinality
  | .mk _ c _ => c

def FieldDesc.kind : FieldDesc → PKind
  | .mk _ _ k => k

/-- descriptor.get_field(field_number) combined with the
fields().enumerate().find(..) lookup of that field's declaration index:
the index and descriptor of the first declared field carrying the
number. -/
def MessageDescriptor.findField (d : MessageDescriptor) (number : Nat) :
    Option (Nat × FieldDesc) :=
  d.fields.enum.find? (fun p => p.2.number = number)

/-- The two VectorAccessor impls seen by the projector: the chunk root
(DataChunk) and a struct vector. -/
inductive VectorAccessor
  | chunkRoot
  | structVector (v : Vec)
deriving DecidableEq

def VectorAccessor.getVector : VectorAccessor → Nat → Vec
  | .chunkRoot, idx => .chunkVector idx
  | .structVector v, idx => .structChild v idx

/-! ### Projector -/

structure RepeatedSetup where
  locals : LocalRepeatedFieldsState
  chunk : ChunkState
  childVector : Vec
  childRow : Nat

/-- ParseContext::handle_repeated_field up to (but not including) the
invocation of the func closure, which the caller runs at the returned
child vector and child row.  Mirrors the source: the Occupied arm bumps
the stored length and uses the stored offset; the Vacant arm reads the
ledger (default 0) with length 1 and — exactly as in the source — inserts
nothing into the locals map; the row list entry is written, and the list
child is grown (reserve + set_size) to offset + length. -/
def handleRepeatedFieldSetup (ps : ParserState) (locals : LocalRepeatedFieldsState)
    (fieldIdx : Nat) (outputVector : Vec) (rowIdx : Nat) (columnKey : ColumnKey)
    (chunk : ChunkState) : RepeatedSetup :=
  let step : LocalRepeatedFieldsState × Nat × Nat :=
    match alGet locals.state fieldIdx with
    | some v =>
      let v2 : LocalRepeatedFieldState := { v with length := v.length + 1 }
      (⟨alInsert locals.state fieldIdx v2⟩, v2.offset, v2.length)
    | none => (locals, (alGet ps.columnState columnKey).getD 0, 1)
  let off := step.2.1
  let len := step.2.2
  let chunk := chunk.writeCell outputVector rowIdx (.listEntry off len)
  let newRootLength := off + len
  let chunk := chunk.setListSize outputVector newRootLength
  { locals := step.1, chunk := chunk,
    childVector := .listChild outputVector, childRow := newRootLength - 1 }

/-- ParseContext::consume_local_fields: publish each locals entry to the
chunk-wide ledger at columnKey.field(tag) with value offset + length.
(HashMap iteration order is immaterial: every reachable locals map is
empty because the Vacant arm never inserts.) -/
def consumeLocalFields (ps : ParserState) (columnKey : ColumnKey)
    (locals : LocalRepeatedFieldsState) : ParserState :=
  locals.state.foldl
    (fun ps p => ⟨alInsert ps.columnState (columnKey.field p.1) (p.2.offset + p.2.length)⟩)
    ps

mutual
/-- gen.rs parse_message.  The Nat fuel is a Lean termination device
(each mutual call costs one unit); the Rust recursion terminates because
every step consumes input.  Sufficient fuel never runs out. -/
def parseMessageF : Nat → MessageDescriptor → List Nat → PState → Nat → ColumnKey →
    VectorAccessor → Except Failure PState
  | 0, _, _, _, _, _, _ => .error .fuelOut
  | fuel + 1, desc, bytes, s, rowIdx, columnKey, target =>
    match parseMessageLoopF fuel desc bytes s rowIdx columnKey target ⟨[]⟩ with
    | .error e => .error e
    | .ok (s2, locals) => .ok { s2 with ps := consumeLocalFields s2.ps columnKey locals }

/-- The while-let loop of parse_message: read a tag, dispatch the field,
loop on the remainder; on loop exit the caller commits the locals. -/
def parseMessageLoopF : Nat → MessageDescriptor → List Nat → PState → Nat → ColumnKey →
    VectorAccessor → LocalRepeatedFieldsState →
    Except Failure (PState × LocalRepeatedFieldsState)
  | 0, _, _, _, _, _, _, _ => .error .fuelOut
  | fuel + 1, desc, bytes, s, rowIdx, columnKey, target, locals =>
    match ctxReadVarint u32VT bytes with
    | .error e => .error e
    | .ok none => .ok (s, locals)
    | .ok (some (tag, rest)) =>
      match desc.findField (tag >>> 3) with
      | none =>
        match skipTag rest tag with
        | .error e => .error e
        | .ok rest2 => parseMessageLoopF fuel desc rest2 s rowIdx columnKey target locals
      | some (fieldIdx, field) =>
        let outputVector := target.getVector fieldIdx
        let columnKey2 := columnKey.field (tag >>> 3)
        match field.card with
        | .optional | .required =>
          match parseFieldF fuel field.kind rest s rowIdx columnKey2 outputVector with
          | .error e => .error e
          | .ok (handled, rest2, s2) =>
            if handled then
              parseMessageLoopF fuel desc rest2 s2 rowIdx columnKey target locals
            else
              match skipTag rest2 tag with
              | .error e => .error e
              | .ok rest3 =>
                parseMessageLoopF fuel desc rest3 s2 rowIdx columnKey target locals
        | .repeated =>
          let setup := handleRepeatedFieldSetup s.ps locals (tag >>> 3) outputVector rowIdx
            columnKey2 s.chunk
          match parseFieldF fuel field.kind rest { s with chunk := setup.chunk }
              setup.childRow columnKey2 setup.childVector with
          | .error e => .error e
          | .ok (handled, rest2, s2) =>
            if handled then
              parseMessageLoopF fuel desc rest2 s2 rowIdx columnKey target setup.locals
            else
              match skipTag rest2 tag with
              | .error e => .error e
              | .ok rest3 =>
                parseMessageLoopF fuel desc rest3 s2 rowIdx columnKey target setup.locals

/-- gen.rs parse_field: writes one leaf of the given kind at the given
vector and row; Ok(false) with the bytes untouched for unsupported kinds
(the wildcard arm), in which case the caller skips the tag instead. -/
def parseFieldF : Nat → PKind → List Nat → PState → Nat → ColumnKey → Vec →
    Except Failure (Bool × List Nat × PState)
  | 0, _, _, _, _, _, _ => .error .fuelOut
  | fuel + 1, kind, bytes, s, rowIdx, columnKey, outputVector =>
    match kind with
    | .message m =>
      match ctxMustReadVarint u64VT bytes with
      | .error e => .error e
      | .ok (len, rest) =>
        match sliceTo rest len with
        | .error e => .error e
        | .ok sub =>
          match parseMessageF fuel m sub s rowIdx columnKey (.structVector outputVector) with
          | .error e => .error e
          | .ok s2 =>
            match consume rest len with
            | .error e => .error e
            | .ok rest2 => .ok (true, rest2, s2)
    | .enumKind ed =>
      match ctxMustReadVarint u32VT bytes with
      | .error e => .error e
      | .ok (v, rest) =>
        let value : Int := if v < 2 ^ 31 then (v : Int) else (v : Int) - 2 ^ 32
        let vd := (ed.getValue value).getD ed.defaultValue
        .ok (true, rest,
          { s with chunk := s.chunk.writeCell outputVector rowIdx (.strVal vd.name) })
    | .stringKind =>
      match readString bytes s.chunk outputVector rowIdx with
      | .error e => .error e
      | .ok (rest, chunk) => .ok (true, rest, { s with chunk := chunk })
    | .double =>
      match readFixedBytes 8 bytes s.chunk outputVector rowIdx with
      | .error e => .error e
      | .ok (rest, chunk) => .ok (true, rest, { s with chunk := chunk })
    | .float =>
      match readFixedBytes 4 bytes s.chunk outputVector rowIdx with
      | .error e => .error e
      | .ok (rest, chunk) => .ok (true, rest, { s with chunk := chunk })
    | .int64 =>
      match readVarintValue u64VT CellValue.u64Val bytes s.chunk outputVector rowIdx with
      | .error e => .error e
      | .ok (rest, chunk) => .ok (true, rest, { s with chunk := chunk })
    | .uint64 =>
      match readVarintValue u64VT CellValue.u64Val bytes s.chunk outputVector rowIdx with
      | .error e => .error e
      | .ok (rest, chunk) => .ok (true, rest, { s with chunk := chunk })
    | .int32 =>
      match readVarintValue u32VT CellValue.u32Val bytes s.chunk outputVector rowIdx with
      | .error e => .error e
      | .ok (rest, chunk) => .ok (true, rest, { s with chunk := chunk })
    | .uint32 =>
      match readVarintValue u32VT CellValue.u32Val bytes s.chunk outputVector rowIdx with
      | .error e => .error e
      | .ok (rest, chunk) => .ok (true, rest, { s with chunk := chunk })
    | .boolKind =>
      match readBoolValue bytes s.chunk outputVector rowIdx with
      | .error e => .error e
      | .ok (rest, chunk) => .ok (true, rest, { s with chunk := chunk })
    | .unsupported => .ok (false, bytes, s)
end

/-- Fuel large enough for any run over the given bytes (each mutual call
costs one unit; the nesting depth is bounded by the byte count). -/
def fuelFor (bytes : List Nat) : Nat := 4 * bytes.length + 6

/-- Root projector invocation for one record at one output row: empty
column-key prefix, chunk-root accessor, canonical fuel. -/
def parseMessage (desc : MessageDescriptor) (bytes : List Nat) (s : PState) (rowIdx : Nat) :
    Except Failure PState :=
  parseMessageF (fuelFor bytes) desc bytes s rowIdx ColumnKey.empty .chunkRoot

/-- Fresh per-chunk state: empty ledger, untouched chunk. -/
def initialPState : PState := { ps := ParserState.new, chunk := ChunkState.empty }

/-! ### Concrete schemas and payloads used by the claims -/

/-- Schema Tags with one repeated string field, tag 1 (spec S3). -/
def tagsDesc : MessageDescriptor := .mk [.mk 1 .repeated .stringKind]

/-- Schema with one optional string field, tag 1. -/
def stringFieldDesc : MessageDescriptor := .mk [.mk 1 .optional .stringKind]

/-- Schema with one optional message field, tag 1 (empty sub-message). -/
def msgFieldDesc : MessageDescriptor := .mk [.mk 1 .optional (.message (.mk []))]

/-- Schema with one optional int32 field, tag 1. -/
def int32FieldDesc : MessageDescriptor := .mk [.mk 1 .optional .int32]

/-- Schema with no fields at all. -/
def emptyDesc : MessageDescriptor := .mk []

/-- Payload 0A 01 61 0A 01 62: two elements "a", "b" of repeated field 1. -/
def twoTagsPayload : List Nat := [0x0A, 0x01, 0x61, 0x0A, 0x01, 0x62]

/-- Payload 0A 01 61 0A 01 62 0A 01 63 (spec S3): tags = a, b, c. -/
def s3Payload : List Nat := [0x0A, 0x01, 0x61, 0x0A, 0x01, 0x62, 0x0A, 0x01, 0x63]

/-- C2 (evaluation at the failing input): a row containing two elements of
repeated string field 1 completes, yet the ledger still has no entry for
the list column (the claim demands start_offset + length = 2), because
the Vacant arm of handle_repeated_field never inserts into the locals map
(so the Occupied arm and consume_local_fields are unreachable), and the
row list entry ends at (0, 1) with the child grown to 1, not 2. -/
theorem c2_ledger_never_updated :
    (parseMessage tagsDesc twoTagsPayload initialPState 0).map
        (fun s => (s.ps.columnState,
          s.chunk.cells (Vec.chunkVector 0) 0,
          s.chunk.listSize (Vec.chunkVector 0))) =
      .ok ([], some (.listEntry 0 1), 1) := by decide

/-- C3 (evaluation at the failing input, spec S3): decoding the record
0A 01 61 0A 01 62 0A 01 63 against Tags produces the row list entry
(0, 1) — not (0, 3) — with the list child grown to a single slot holding
only the last element "c" (0x63); every element overwrote child row 0. -/
theorem c3_s3_repeated_strings :
    (parseMessage tagsDesc s3Payload initialPState 0).map
        (fun s => (s.chunk.cells (Vec.chunkVector 0) 0,
          s.chunk.cells (Vec.listChild (Vec.chunkVector 0)) 0,
          s.chunk.cells (Vec.listChild (Vec.chunkVector 0)) 1,
          s.chunk.cells (Vec.listChild (Vec.chunkVector 0)) 2,
          s.chunk.listSize (Vec.chunkVector 0))) =
      .ok (some (.listEntry 0 1), some (.strVal [0x63]), none, none, 1) := by decide

/-- C4 counterexample: a string field whose declared length (2) exceeds
the single remaining byte makes the projector panic (the bounds check of
the slice bytes[..len]); it does not return a wire-format error as the
claim states. -/
theorem c4_overlong_string_panics :
    parseMessage stringFieldDesc [0x0A, 0x02, 0x61] initialPState 0 =
      .error .panicked := rfl

/-- C4 amended: whenever a length-delimited value's declared length
exceeds the bytes remaining in the buffer — string field via read_string,
message field via ctx.next, skipped unknown length-delimited field via
consume — the projector panics through the slice bounds check instead of
returning a wire-format error; and the panic is a safe abort that never
accesses bytes past the end of the slice: every slice the projector takes
is take/drop of the in-bounds portion of the buffer, and the overlong
case yields the abort and no bytes at all. -/
theorem c4_overlong_length_panics :
    (∀ (bytes rest : List Nat) (len rowIdx : Nat) (chunk : ChunkState) (vec : Vec),
      ctxMustReadVarint u64VT bytes = .ok (len, rest) → rest.length < len →
      readString bytes chunk vec rowIdx = .error .panicked) ∧
    (∀ (fuel : Nat) (m : MessageDescriptor) (bytes rest : List Nat) (len rowIdx : Nat)
      (s : PState) (ck : ColumnKey) (vec : Vec),
      ctxMustReadVarint u64VT bytes = .ok (len, rest) → rest.length < len →
      parseFieldF (fuel + 1) (.message m) bytes s rowIdx ck vec = .error .panicked) ∧
    (∀ (bytes rest : List Nat) (len : Nat),
      ctxMustReadVarint u64VT bytes = .ok (len, rest) → rest.length < len →
      skipWireType bytes .lengthDelimited = .error .panicked) ∧
    (∀ (bytes : List Nat) (n : Nat), n ≤ bytes.length →
      sliceTo bytes n = .ok (bytes.take n) ∧ consume bytes n = .ok (bytes.drop n)) ∧
    (∀ (bytes : List Nat) (n : Nat), bytes.length < n →
      sliceTo bytes n = .error .panicked ∧ consume bytes n = .error .panicked) := by
  refine ⟨?_, ?_, ?_, ?_, ?_⟩
  · intro bytes rest len rowIdx chunk vec h hlt
    have hn : ¬ len ≤ rest.length := by omega
    unfold readString
    rw [h]
    simp [sliceTo, hn]
  · intro fuel m bytes rest len rowIdx s ck vec h hlt
    have hn : ¬ len ≤ rest.length := by omega
    simp only [parseFieldF]
    rw [h]
    simp [sliceTo, hn]
  · intro bytes rest len h hlt
    have hn : ¬ len ≤ rest.length := by omega
    unfold skipWireType
    rw [h]
    simp [consume, hn]
  · intro bytes n h
    exact ⟨by simp [sliceTo, h], by simp [consume, h]⟩
  · intro bytes n h
    have hn : ¬ n ≤ bytes.length := by omega
    exact ⟨by simp [sliceTo, hn], by simp [consume, hn]⟩

theorem c4_overlong_length_panics_witness :
    readString [0x05, 0x61] ChunkState.empty (Vec.chunkVector 0) 0 = .error .panicked ∧
    parseFieldF 2 (.message emptyDesc) [0x05, 0x61] initialPState 0 ColumnKey.empty
      (Vec.chunkVector 0) = .error .panicked ∧
    skipWireType [0x05, 0x61] .lengthDelimited = .error .panicked ∧
    (sliceTo [0x61, 0x62] 1 = .ok (List.take 1 [0x61, 0x62]) ∧
      consume [0x61, 0x62] 1 = .ok (List.drop 1 [0x61, 0x62])) ∧
    (sliceTo [0x61] 5 = .error .panicked ∧ consume [0x61] 5 = .error .panicked) :=
  ⟨c4_overlong_length_panics.1 [0x05, 0x61] [0x61] 5 0 ChunkState.empty (Vec.chunkVector 0)
      rfl (by decide),
   c4_overlong_length_panics.2.1 1 emptyDesc [0x05, 0x61] [0x61] 5 0 initialPState
      ColumnKey.empty (Vec.chunkVector 0) rfl (by decide),
   c4_overlong_length_panics.2.2.1 [0x05, 0x61] [0x61] 5 rfl (by decide),
   c4_overlong_length_panics.2.2.2.1 [0x61, 0x62] 1 (by decide),
   c4_overlong_length_panics.2.2.2.2 [0x61] 5 (by decide)⟩

/-- C5 counterexample: the canonical ten-byte varint encoding of the
int32 value -1 (wire bytes 08 FF FF FF FF FF FF FF FF FF 01) is a hard
IncorrectVarint error, not a stored low-32-bit truncation as the claim
states. -/
theorem c5_negative_int32_is_error :
    parseMessage int32FieldDesc
        [0x08, 0xff, 0xff, 0xff, 0xff, 0xff, 0xff, 0xff, 0xff, 0xff, 0x01]
        initialPState 0 = .error (.fail .incorrectVarint) := rfl

/-- C5 amended: the int32/uint32 leaf writer decodes with the 32-bit
varint decoder, which rejects encodings carrying more than 32 bits of
value (so a ten-byte negative-int32 encoding fails hard); when the 32-bit
decode succeeds, the decoded value — already narrowed by from_u64 to
32 bits — is stored unchanged in the typed slot. -/
theorem c5_int32_uint32_narrowing (fuel : Nat) (kind : PKind)
    (hk : kind = .int32 ∨ kind = .uint32) (bytes : List Nat) (s : PState) (rowIdx : Nat)
    (ck : ColumnKey) (vec : Vec) (v c : Nat)
    (h : decodeVarint u32VT bytes = .ok (some (v, c))) :
    parseFieldF (fuel + 1) kind bytes s rowIdx ck vec =
      .ok (true, bytes.drop c,
        { s with chunk := s.chunk.writeCell vec rowIdx (.u32Val v) }) ∧
    v < 2 ^ 32 := by
  have hc := decodeVarint_consumed u32VT bytes v c h
  have hlt := decodeVarint_lt u32VT bytes v c h
  refine ⟨?_, by simpa [u32VT] using hlt⟩
  rcases hk with hk | hk <;> subst hk <;>
    simp [parseFieldF, readVarintValue, ctxMustReadVarint, ctxReadVarint, h, consume, hc.2]

/-- Witness for C5: the amended theorem applied to the one-byte varint 7
on an int32 field. -/
theorem c5_int32_uint32_narrowing_witness :
    parseFieldF 1 .int32 [0x07] initialPState 0 ColumnKey.empty (Vec.chunkVector 0) =
      .ok (true, ([0x07] : List Nat).drop 1,
        { initialPState with
          chunk := initialPState.chunk.writeCell (Vec.chunkVector 0) 0 (.u32Val 7) }) ∧
    (7 : Nat) < 2 ^ 32 :=
  c5_int32_uint32_narrowing 0 .int32 (Or.inl rfl) [0x07] initialPState 0 ColumnKey.empty
    (Vec.chunkVector 0) 7 1 (by decide)

/-- C8: a field number absent from the message descriptor makes the loop
skip exactly one value of the tag wire type and continue unchanged on the
remainder; concretely, a record carrying known string field 1 ("hi") and
an unknown length-delimited field 99 decodes successfully with the string
captured. -/
theorem c8_unknown_field_skipped :
    (∀ (fuel : Nat) (desc : MessageDescriptor) (bytes rest rest2 : List Nat) (s : PState)
      (rowIdx : Nat) (columnKey : ColumnKey) (target : VectorAccessor)
      (locals : LocalRepeatedFieldsState) (tag : Nat),
      ctxReadVarint u32VT bytes = .ok (some (tag, rest)) →
      desc.findField (tag >>> 3) = none →
      skipTag rest tag = .ok rest2 →
      parseMessageLoopF (fuel + 1) desc bytes s rowIdx columnKey target locals =
        parseMessageLoopF fuel desc rest2 s rowIdx columnKey target locals) ∧
    (parseMessage stringFieldDesc
        [0x0A, 0x02, 0x68, 0x69, 0x9A, 0x06, 0x03, 0x01, 0x02, 0x03]
        initialPState 0).map
        (fun s => (s.chunk.cells (Vec.chunkVector 0) 0, s.ps.columnState)) =
      .ok (some (.strVal [0x68, 0x69]), []) := by
  constructor
  · intro fuel desc bytes rest rest2 s rowIdx columnKey target locals tag h1 h2 h3
    simp [parseMessageLoopF, h1, h2, h3]
  · decide

/-- Witness for C8: the skip clause applied at the concrete unknown tag
794 (field 99, wire type 2) followed by an empty length-delimited value. -/
theorem c8_unknown_field_skipped_witness :
    parseMessageLoopF 3 emptyDesc [0x9A, 0x06, 0x00] initialPState 0 ColumnKey.empty
        .chunkRoot ⟨[]⟩ =
      parseMessageLoopF 2 emptyDesc [] initialPState 0 ColumnKey.empty .chunkRoot ⟨[]⟩ :=
  c8_unknown_field_skipped.1 2 emptyDesc [0x9A, 0x06, 0x00] [0x00] [] initialPState 0
    ColumnKey.empty .chunkRoot ⟨[]⟩ 794 (by decide) rfl (by decide)

/-! ### Filename synthetic column — src/packages/duckdb_protobuf/src/vtab.rs

The include_filename block of ProtobufVTab::func converts the matched
file path to a CString through Path::to_str (which requires the path
bytes to be valid UTF-8) and CString::new (which fails on an interior NUL
byte); on failure it marks the row invalid in the filename column
validity mask instead of erroring.  Paths are byte strings here (Unix
OsStr).
-/

def isCont (b : Nat) : Bool := decide (0x80 ≤ b ∧ b ≤ 0xbf)

/-- UTF-8 validity of a byte string (RFC 3629 table, as enforced by
str::from_utf8 behind Path::to_str). -/
def isValidUtf8 : List Nat → Bool
  | [] => true
  | b :: rest =>
    if b ≤ 0x7f then isValidUtf8 rest
    else if 0xc2 ≤ b ∧ b ≤ 0xdf then
      match rest with
      | c1 :: r => isCont c1 && isValidUtf8 r
      | [] => false
    else if 0xe0 ≤ b ∧ b ≤ 0xef then
      match rest with
      | c1 :: c2 :: r =>
        (if b = 0xe0 then decide (0xa0 ≤ c1 ∧ c1 ≤ 0xbf)
         else if b = 0xed then decide (0x80 ≤ c1 ∧ c1 ≤ 0x9f)
         else isCont c1) && isCont c2 && isValidUtf8 r
      | _ => false
    else if 0xf0 ≤ b ∧ b ≤ 0xf4 then
      match rest with
      | c1 :: c2 :: c3 :: r =>
        (if b = 0xf0 then decide (0x90 ≤ c1 ∧ c1 ≤ 0xbf)
         else if b = 0xf4 then decide (0x80 ≤ c1 ∧ c1 ≤ 0x8f)
         else isCont c1) && isCont c2 && isCont c3 && isValidUtf8 r
      | _ => false
    else false

/-- Path::to_str on Unix: Some exactly when the path bytes are valid
UTF-8. -/
def pathToStr (path : List Nat) : Option (List Nat) :=
  if isValidUtf8 path then some path else none

/-- CString::new: fails exactly when the bytes contain an interior NUL. -/
def cstringNew (bytes : List Nat) : Option (List Nat) :=
  if bytes.contains 0 then none else some bytes

/-- The closure (|| -> Option<CString> ...)() in the include_filename
block: CString::new(path.to_str()?).ok()?. -/
def filenameCValue (path : List Nat) : Option (List Nat) :=
  match pathToStr path with
  | none => none
  | some s => cstringNew s

/-- The include_filename block for one produced row: look up the output
position of the filename column among the projected column indices (the
enumerate().find comparing against the synthetic column offset); when
present, either assign the path string or — when the CString conversion
failed — mark the row invalid through duckdb_validity_set_row_invalid. -/
def writeFilenameColumn (columnIndices : List Nat) (fieldOffset : Nat) (path : List Nat)
    (st : ChunkState) (outputRowIdx : Nat) : ChunkState :=
  match columnIndices.enum.find? (fun p => p.2 = fieldOffset) with
  | none => st
  | some (outIdx, _) =>
    match filenameCValue path with
    | none => st.setRowInvalid (Vec.chunkVector outIdx) outputRowIdx
    | some s => st.writeCell (Vec.chunkVector outIdx) outputRowIdx (.strVal s)

/-- The produce loop restricted to the filename block and the items
counter: ProtobufVTab::func runs the block after the row's message
projection; the block is total (it cannot return an error), so every
record yields a produced row. -/
def produceRows (includeFilename : Bool) (columnIndices : List Nat) (fieldOffset : Nat)
    (records : List (List Nat)) (st : ChunkState) : ChunkState × Nat :=
  records.foldl
    (fun acc path =>
      let st2 := if includeFilename then
          writeFilenameColumn columnIndices fieldOffset path acc.1 acc.2
        else acc.1
      (st2, acc.2 + 1))
    (st, 0)

theorem produceRows_foldl_count (includeFilename : Bool) (columnIndices : List Nat)
    (fieldOffset : Nat) :
    ∀ (records : List (List Nat)) (st : ChunkState) (k : Nat),
      (records.foldl
        (fun acc path =>
          let st2 := if includeFilename then
              writeFilenameColumn columnIndices fieldOffset path acc.1 acc.2
            else acc.1
          (st2, acc.2 + 1))
        (st, k)).2 = k + records.length := by
  intro records
  induction records with
  | nil => intro st k; simp
  | cons r rs ih =>
    intro st k
    simp only [List.foldl_cons, List.length_cons]
    rw [ih]
    omega

/-- C10: when the filename column is enabled and projected, a path that
cannot be represented as a C string (not valid UTF-8, or containing an
interior NUL) makes the produce step mark that row invalid (NULL) in the
filename column instead of returning an error; no cell written for other
columns is touched, and the loop still produces every record as a row. -/
theorem c10_unrepresentable_path_nulls (columnIndices : List Nat) (fieldOffset outIdx : Nat)
    (path : List Nat) (st : ChunkState) (row : Nat)
    (hfind : columnIndices.enum.find? (fun p => p.2 = fieldOffset) =
      some (outIdx, fieldOffset))
    (hbad : isValidUtf8 path = false ∨ path.contains 0 = true) :
    writeFilenameColumn columnIndices fieldOffset path st row =
      st.setRowInvalid (Vec.chunkVector outIdx) row ∧
    (writeFilenameColumn columnIndices fieldOffset path st row).validity
      (Vec.chunkVector outIdx) row = false ∧
    (∀ v r, (writeFilenameColumn columnIndices fieldOffset path st row).cells v r =
      st.cells v r) ∧
    (∀ (records : List (List Nat)) (st0 : ChunkState),
      (produceRows true columnIndices fieldOffset records st0).2 = records.length) := by
  have hval : filenameCValue path = none := by
    rcases hbad with hbad | hbad
    · simp [filenameCValue, pathToStr, hbad]
    · rcases h2 : isValidUtf8 path with _ | _
      · simp [filenameCValue, pathToStr, h2]
      · simp only [filenameCValue, pathToStr, cstringNew, h2, if_true]
        rw [if_pos]
        simpa using hbad
  have hw : writeFilenameColumn columnIndices fieldOffset path st row =
      st.setRowInvalid (Vec.chunkVector outIdx) row := by
    simp [writeFilenameColumn, hfind, hval]
  refine ⟨hw, ?_, ?_, ?_⟩
  · rw [hw]
    simp [ChunkState.setRowInvalid]
  · intro v r
    rw [hw]
    rfl
  · intro records st0
    have h := produceRows_foldl_count true columnIndices fieldOffset records st0 0
    simpa [produceRows] using h

/-- Witness for C10: a one-byte path 0xFF (invalid UTF-8) with the
filename column projected at output position 0. -/
theorem c10_unrepresentable_path_nulls_witness :
    writeFilenameColumn [0] 0 [0xff] ChunkState.empty 0 =
      ChunkState.empty.setRowInvalid (Vec.chunkVector 0) 0 ∧
    (writeFilenameColumn [0] 0 [0xff] ChunkState.empty 0).validity (Vec.chunkVector 0) 0 =
      false ∧
    (∀ v r, (writeFilenameColumn [0] 0 [0xff] ChunkState.empty 0).cells v r =
      ChunkState.empty.cells v r) ∧
    (∀ (records : List (List Nat)) (st0 : ChunkState),
      (produceRows true [0] 0 records st0).2 = records.length) :=
  c10_unrepresentable_path_nulls [0] 0 0 [0xff] ChunkState.empty 0 (by decide)
    (Or.inl (by decide))

/-! ### Field-order invariance (C9): write-op machinery

The projector only ever writes the chunk through writeCell and
setListSize.  A write list reifies the chunk effect of a parse run so
that effects of occurrences of different fields can be shown to commute:
every write of an occurrence lands in the vector subtree rooted at that
field's chunk column index.
-/

inductive WriteOp
  | cellW (v : Vec) (row : Nat) (val : CellValue)
  | sizeW (v : Vec) (n : Nat)
deriving DecidableEq

def WriteOp.vec : WriteOp → Vec
  | .cellW v _ _ => v
  | .sizeW v _ => v

def applyOp (st : ChunkState) : WriteOp → ChunkState
  | .cellW v row val => st.writeCell v row val
  | .sizeW v n => st.setListSize v n

def applyOps (ops : List WriteOp) (st : ChunkState) : ChunkState :=
  ops.foldl applyOp st

/-- The chunk column index a vector hangs under. -/
def vecRoot : Vec → Nat
  | .chunkVector i => i
  | .structChild parent _ => vecRoot parent
  | .listChild parent => vecRoot parent

theorem applyOps_append (ops1 ops2 : List WriteOp) (st : ChunkState) :
    applyOps (ops1 ++ ops2) st = applyOps ops2 (applyOps ops1 st) := by
  simp [applyOps, List.foldl_append]

theorem vecRoot_ne (v w : Vec) (h : vecRoot v ≠ vecRoot w) : v ≠ w := by
  intro he
  exact h (by rw [he])

theorem writeCell_comm (st : ChunkState) (v1 v2 : Vec) (r1 r2 : Nat) (a b : CellValue)
    (h : v1 ≠ v2) :
    (st.writeCell v1 r1 a).writeCell v2 r2 b = (st.writeCell v2 r2 b).writeCell v1 r1 a := by
  simp only [ChunkState.writeCell]
  congr 1
  funext v r
  have h' : ¬ (v2 = v1) := fun hc => h hc.symm
  by_cases h1 : v = v1 ∧ r = r1 <;> by_cases h2 : v = v2 ∧ r = r2
  · exact absurd (h1.1.symm.trans h2.1) h
  all_goals simp [h1, h2, h, h']

theorem setListSize_comm (st : ChunkState) (v1 v2 : Vec) (n1 n2 : Nat) (h : v1 ≠ v2) :
    (st.setListSize v1 n1).setListSize v2 n2 = (st.setListSize v2 n2).setListSize v1 n1 := by
  simp only [ChunkState.setListSize]
  congr 1
  funext v
  have h' : ¬ (v2 = v1) := fun hc => h hc.symm
  by_cases h1 : v = v1 <;> by_cases h2 : v = v2
  · exact absurd (h1.symm.trans h2) h
  all_goals simp [h1, h2, h, h']

theorem writeCell_setListSize_comm (st : ChunkState) (v1 v2 : Vec) (r1 n2 : Nat)
    (a : CellValue) :
    (st.writeCell v1 r1 a).setListSize v2 n2 = (st.setListSize v2 n2).writeCell v1 r1 a := by
  simp [ChunkState.writeCell, ChunkState.setListSize]

theorem applyOp_comm (st : ChunkState) (op1 op2 : WriteOp)
    (h : vecRoot op1.vec ≠ vecRoot op2.vec) :
    applyOp (applyOp st op1) op2 = applyOp (applyOp st op2) op1 := by
  have hne : op1.vec ≠ op2.vec := vecRoot_ne _ _ h
  cases op1 with
  | cellW v1 r1 val1 =>
    cases op2 with
    | cellW v2 r2 val2 => exact writeCell_comm st v1 v2 r1 r2 val1 val2 hne
    | sizeW v2 n2 => exact writeCell_setListSize_comm st v1 v2 r1 n2 val1
  | sizeW v1 n1 =>
    cases op2 with
    | cellW v2 r2 val2 => exact (writeCell_setListSize_comm st v2 v1 r2 n1 val2).symm
    | sizeW v2 n2 => exact setListSize_comm st v1 v2 n1 n2 hne

theorem applyOp_applyOps_comm (st : ChunkState) (op : WriteOp) (ops : List WriteOp)
    (h : ∀ o ∈ ops, vecRoot (WriteOp.vec o) ≠ vecRoot (WriteOp.vec op)) :
    applyOps ops (applyOp st op) = applyOp (applyOps ops st) op := by
  induction ops generalizing st with
  | nil => rfl
  | cons o os ih =>
    simp only [applyOps, List.foldl_cons] at ih ⊢
    rw [applyOp_comm st op o (fun hc => (h o (by simp)) hc.symm)]
    exact ih _ (fun o2 ho2 => h o2 (by simp [ho2]))

/-- Effects whose write sets live under different chunk columns
commute. -/
theorem applyOps_comm (st : ChunkState) (ops1 ops2 : List WriteOp) (r1 r2 : Nat)
    (hr : r1 ≠ r2)
    (h1 : ∀ o ∈ ops1, vecRoot (WriteOp.vec o) = r1)
    (h2 : ∀ o ∈ ops2, vecRoot (WriteOp.vec o) = r2) :
    applyOps ops2 (applyOps ops1 st) = applyOps ops1 (applyOps ops2 st) := by
  induction ops1 generalizing st with
  | nil => rfl
  | cons o os ih =>
    simp only [applyOps, List.foldl_cons] at ih ⊢
    rw [ih (applyOp st o) (fun o2 ho2 => h1 o2 (by simp [ho2]))]
    have step2 : List.foldl applyOp (applyOp st o) ops2 =
        applyOp (List.foldl applyOp st ops2) o := by
      have hcomm := applyOp_applyOps_comm st o ops2
        (fun o2 ho2 => by rw [h2 o2 ho2, h1 o (by simp)]; exact fun hc => hr hc.symm)
      simpa [applyOps] using hcomm
    rw [step2]

/-! Prefix determinism of the context operations: bytes appended after a
successfully consumed region do not change what was read or written, they
only ride along in the remainder. -/

theorem consume_append (bytes ext out : List Nat) (n : Nat)
    (h : consume bytes n = .ok out) : consume (bytes ++ ext) n = .ok (out ++ ext) := by
  unfold consume at h ⊢
  split at h
  · rename_i hle
    simp only [Except.ok.injEq] at h
    subst h
    rw [if_pos (by simp; omega)]
    rw [List.drop_append_of_le_length hle]
  · simp at h

theorem sliceTo_append (bytes ext out : List Nat) (n : Nat)
    (h : sliceTo bytes n = .ok out) : sliceTo (bytes ++ ext) n = .ok out := by
  unfold sliceTo at h ⊢
  split at h
  · rename_i hle
    simp only [Except.ok.injEq] at h
    subst h
    rw [if_pos (by simp; omega)]
    rw [List.take_append_of_le_length hle]
  · simp at h

theorem ctxReadVarint_append (D : VarintType) (hD : 3 ≤ D.maxEncodedLen)
    (bytes ext r : List Nat) (v : Nat)
    (h : ctxReadVarint D bytes = .ok (some (v, r))) :
    ctxReadVarint D (bytes ++ ext) = .ok (some (v, r ++ ext)) := by
  unfold ctxReadVarint at h ⊢
  split at h
  · simp at h
  · simp at h
  · rename_i v0 c hd
    split at h
    · simp at h
    · rename_i rest hc
      simp only [Except.ok.injEq, Option.some.injEq, Prod.mk.injEq] at h
      obtain ⟨hv, hr⟩ := h
      simp [decodeVarint_append D hD bytes ext v0 c hd,
        consume_append bytes ext rest c hc, hv, hr]

theorem ctxMustReadVarint_append (D : VarintType) (hD : 3 ≤ D.maxEncodedLen)
    (bytes ext r : List Nat) (v : Nat)
    (h : ctxMustReadVarint D bytes = .ok (v, r)) :
    ctxMustReadVarint D (bytes ++ ext) = .ok (v, r ++ ext) := by
  unfold ctxMustReadVarint at h ⊢
  split at h
  · simp at h
  · simp at h
  · rename_i p hd
    simp only [Except.ok.injEq] at h
    have hd2 : ctxReadVarint D bytes = .ok (some (v, r)) := by rw [hd, h]
    simp [ctxReadVarint_append D hD bytes ext r v hd2]

theorem readString_append (bytes ext rest : List Nat) (chunk chunk2 : ChunkState)
    (outputVector : Vec) (rowIdx : Nat)
    (h : readString bytes chunk outputVector rowIdx = .ok (rest, chunk2)) :
    readString (bytes ++ ext) chunk outputVector rowIdx = .ok (rest ++ ext, chunk2) := by
  unfold readString at h ⊢
  split at h
  · simp at h
  · rename_i len r0 hm
    split at h
    · simp at h
    · rename_i s hs
      split at h
      · simp at h
      · rename_i r2 hc
        simp only [Except.ok.injEq, Prod.mk.injEq] at h
        obtain ⟨h1, h2⟩ := h
        simp [ctxMustReadVarint_append u64VT (by norm_num [u64VT]) bytes ext r0 len hm,
          sliceTo_append r0 ext s len hs, consume_append r0 ext r2 len hc, h1, h2]

theorem readFixedBytes_append (n : Nat) (bytes ext rest : List Nat)
    (chunk chunk2 : ChunkState) (outputVector : Vec) (rowIdx : Nat)
    (h : readFixedBytes n bytes chunk outputVector rowIdx = .ok (rest, chunk2)) :
    readFixedBytes n (bytes ++ ext) chunk outputVector rowIdx = .ok (rest ++ ext, chunk2) := by
  unfold readFixedBytes at h ⊢
  split at h
  · simp at h
  · rename_i s hs
    split at h
    · simp at h
    · rename_i r2 hc
      simp only [Except.ok.injEq, Prod.mk.injEq] at h
      obtain ⟨h1, h2⟩ := h
      simp [sliceTo_append bytes ext s n hs, consume_append bytes ext r2 n hc, h1, h2]

theorem readVarintValue_append (D : VarintType) (hD : 3 ≤ D.maxEncodedLen)
    (mk : Nat → CellValue) (bytes ext rest : List Nat) (chunk chunk2 : ChunkState)
    (outputVector : Vec) (rowIdx : Nat)
    (h : readVarintValue D mk bytes chunk outputVector rowIdx = .ok (rest, chunk2)) :
    readVarintValue D mk (bytes ++ ext) chunk outputVector rowIdx =
      .ok (rest ++ ext, chunk2) := by
  unfold readVarintValue at h ⊢
  split at h
  · simp at h
  · rename_i v r0 hm
    simp only [Except.ok.injEq, Prod.mk.injEq] at h
    obtain ⟨h1, h2⟩ := h
    simp [ctxMustReadVarint_append D hD bytes ext r0 v hm, h1, h2]

theorem readBoolValue_append (bytes ext rest : List Nat) (chunk chunk2 : ChunkState)
    (outputVector : Vec) (rowIdx : Nat)
    (h : readBoolValue bytes chunk outputVector rowIdx = .ok (rest, chunk2)) :
    readBoolValue (bytes ++ ext) chunk outputVector rowIdx = .ok (rest ++ ext, chunk2) := by
  unfold readBoolValue at h ⊢
  split at h
  · simp at h
  · rename_i v r0 hm
    simp only [Except.ok.injEq, Prod.mk.injEq] at h
    obtain ⟨h1, h2⟩ := h
    simp [ctxMustReadVarint_append u64VT (by norm_num [u64VT]) bytes ext r0 v hm, h1, h2]

/-- Appending bytes after a leaf that parse_field already consumed does
not change the leaf's effect: the same flag, the same final state, and
the appended bytes ride along in the remainder.  (The message case slices
an exact sub-buffer, so the nested parse is untouched by the
extension.) -/
theorem parseFieldF_append (fuel : Nat) (kind : PKind) (bytes ext rest : List Nat)
    (s s2 : PState) (rowIdx : Nat) (ck : ColumnKey) (vec : Vec) (handled : Bool)
    (h : parseFieldF fuel kind bytes s rowIdx ck vec = .ok (handled, rest, s2)) :
    parseFieldF fuel kind (bytes ++ ext) s rowIdx ck vec = .ok (handled, rest ++ ext, s2) := by
  match fuel with
  | 0 => simp [parseFieldF] at h
  | f + 1 =>
    cases kind with
    | message m =>
      simp only [parseFieldF] at h ⊢
      split at h
      · simp at h
      · rename_i len r0 hm
        split at h
        · simp at h
        · rename_i sub hs
          split at h
          · simp at h
          · rename_i s3 hp
            split at h
            · simp at h
            · rename_i r2 hc
              simp only [Except.ok.injEq, Prod.mk.injEq] at h
              obtain ⟨h1, h2, h3⟩ := h
              simp [ctxMustReadVarint_append u64VT (by norm_num [u64VT]) bytes ext r0 len hm,
                sliceTo_append r0 ext sub len hs, hp,
                consume_append r0 ext r2 len hc, h1, h2, h3]
    | enumKind ed =>
      simp only [parseFieldF] at h ⊢
      split at h
      · simp at h
      · rename_i v r0 hm
        simp only [Except.ok.injEq, Prod.mk.injEq] at h
        obtain ⟨h1, h2, h3⟩ := h
        norm_num at h3
        simp [ctxMustReadVarint_append u32VT (by norm_num [u32VT]) bytes ext r0 v hm,
          h1, h2, h3]
    | stringKind =>
      simp only [parseFieldF] at h ⊢
      split at h
      · simp at h
      · rename_i r0 chunk0 hr
        simp only [Except.ok.injEq, Prod.mk.injEq] at h
        obtain ⟨h1, h2, h3⟩ := h
        simp [readString_append bytes ext r0 s.chunk chunk0 vec rowIdx hr, h1, h2, h3]
    | double =>
      simp only [parseFieldF] at h ⊢
      split at h
      · simp at h
      · rename_i r0 chunk0 hr
        simp only [Except.ok.injEq, Prod.mk.injEq] at h
        obtain ⟨h1, h2, h3⟩ := h
        simp [readFixedBytes_append 8 bytes ext r0 s.chunk chunk0 vec rowIdx hr, h1, h2, h3]
    | float =>
      simp only [parseFieldF] at h ⊢
      split at h
      · simp at h
      · rename_i r0 chunk0 hr
        simp only [Except.ok.injEq, Prod.mk.injEq] at h
        obtain ⟨h1, h2, h3⟩ := h
        simp [readFixedBytes_append 4 bytes ext r0 s.chunk chunk0 vec rowIdx hr, h1, h2, h3]
    | int64 =>
      simp only [parseFieldF] at h ⊢
      split at h
      · simp at h
      · rename_i r0 chunk0 hr
        simp only [Except.ok.injEq, Prod.mk.injEq] at h
        obtain ⟨h1, h2, h3⟩ := h
        simp [readVarintValue_append u64VT (by norm_num [u64VT]) CellValue.u64Val bytes ext r0
          s.chunk chunk0 vec rowIdx hr, h1, h2, h3]
    | uint64 =>
      simp only [parseFieldF] at h ⊢
      split at h
      · simp at h
      · rename_i r0 chunk0 hr
        simp only [Except.ok.injEq, Prod.mk.injEq] at h
        obtain ⟨h1, h2, h3⟩ := h
        simp [readVarintValue_append u64VT (by norm_num [u64VT]) CellValue.u64Val bytes ext r0
          s.chunk chunk0 vec rowIdx hr, h1, h2, h3]
    | int32 =>
      simp only [parseFieldF] at h ⊢
      split at h
      · simp at h
      · rename_i r0 chunk0 hr
        simp only [Except.ok.injEq, Prod.mk.injEq] at h
        obtain ⟨h1, h2, h3⟩ := h
        simp [readVarintValue_append u32VT (by norm_num [u32VT]) CellValue.u32Val bytes ext r0
          s.chunk chunk0 vec rowIdx hr, h1, h2, h3]
    | uint32 =>
      simp only [parseFieldF] at h ⊢
      split at h
      · simp at h
      · rename_i r0 chunk0 hr
        simp only [Except.ok.injEq, Prod.mk.injEq] at h
        obtain ⟨h1, h2, h3⟩ := h
        simp [readVarintValue_append u32VT (by norm_num [u32VT]) CellValue.u32Val bytes ext r0
          s.chunk chunk0 vec rowIdx hr, h1, h2, h3]
    | boolKind =>
      simp only [parseFieldF] at h ⊢
      split at h
      · simp at h
      · rename_i r0 chunk0 hr
        simp only [Except.ok.injEq, Prod.mk.injEq] at h
        obtain ⟨h1, h2, h3⟩ := h
        simp [readBoolValue_append bytes ext r0 s.chunk chunk0 vec rowIdx hr, h1, h2, h3]
    | unsupported =>
      simp only [parseFieldF, Except.ok.injEq, Prod.mk.injEq] at h ⊢
      obtain ⟨h1, h2, h3⟩ := h
      simp [h1, h2, h3]

/-- Fuel monotonicity: a run that succeeds at some fuel returns the same
answer at any larger fuel (the fuel is pure termination bookkeeping). -/
theorem parse_fuel_mono (fuel : Nat) :
    (∀ kind bytes s rowIdx ck vec r,
      parseFieldF fuel kind bytes s rowIdx ck vec = .ok r →
      parseFieldF (fuel + 1) kind bytes s rowIdx ck vec = .ok r) ∧
    (∀ desc bytes s rowIdx ck target locals r,
      parseMessageLoopF fuel desc bytes s rowIdx ck target locals = .ok r →
      parseMessageLoopF (fuel + 1) desc bytes s rowIdx ck target locals = .ok r) ∧
    (∀ desc bytes s rowIdx ck target r,
      parseMessageF fuel desc bytes s rowIdx ck target = .ok r →
      parseMessageF (fuel + 1) desc bytes s rowIdx ck target = .ok r) := by
  induction fuel with
  | zero =>
    refine ⟨?_, ?_, ?_⟩
    · intro kind bytes s rowIdx ck vec r h
      simp [parseFieldF] at h
    · intro desc bytes s rowIdx ck target locals r h
      simp [parseMessageLoopF] at h
    · intro desc bytes s rowIdx ck target r h
      simp [parseMessageF] at h
  | succ f ih =>
    obtain ⟨ihField, ihLoop, ihMsg⟩ := ih
    refine ⟨?_, ?_, ?_⟩
    · intro kind bytes s rowIdx ck vec r h
      cases kind with
      | message m =>
        simp only [parseFieldF] at h
        split at h
        · simp at h
        · rename_i len r0 hm
          split at h
          · simp at h
          · rename_i sub hs
            split at h
            · simp at h
            · rename_i s3 hp
              have hrec := ihMsg m sub s rowIdx ck (.structVector vec) s3 hp
              generalize hg : f + 1 = g
              rw [hg] at hrec
              simp only [parseFieldF]
              simp [hm, hs, hrec, h]
      | enumKind ed =>
        simp only [parseFieldF] at h ⊢
        exact h
      | stringKind =>
        simp only [parseFieldF] at h ⊢
        exact h
      | double =>
        simp only [parseFieldF] at h ⊢
        exact h
      | float =>
        simp only [parseFieldF] at h ⊢
        exact h
      | int64 =>
        simp only [parseFieldF] at h ⊢
        exact h
      | uint64 =>
        simp only [parseFieldF] at h ⊢
        exact h
      | int32 =>
        simp only [parseFieldF] at h ⊢
        exact h
      | uint32 =>
        simp only [parseFieldF] at h ⊢
        exact h
      | boolKind =>
        simp only [parseFieldF] at h ⊢
        exact h
      | unsupported =>
        simp only [parseFieldF] at h ⊢
        exact h
    · intro desc bytes s rowIdx ck target locals r h
      simp only [parseMessageLoopF] at h
      split at h
      · simp at h
      · rename_i hv
        generalize hg : f + 1 = g
        simp only [parseMessageLoopF]
        simp [hv, h]
      · rename_i tag rest hv
        split at h
        · rename_i hf
          split at h
          · simp at h
          · rename_i rest2 hsk
            have hrec := ihLoop desc rest2 s rowIdx ck target locals r h
            generalize hg : f + 1 = g
            rw [hg] at hrec
            simp only [parseMessageLoopF]
            simp [hv, hf, hsk, hrec]
        · rename_i fieldIdx field hf
          split at h
          · rename_i hcard
            split at h
            · simp at h
            · rename_i handled rest2 s2 hpf
              have hpf2 := ihField field.kind rest s rowIdx (ck.field (tag >>> 3))
                (target.getVector fieldIdx) _ hpf
              split at h
              · rename_i hh
                have hrec := ihLoop desc rest2 s2 rowIdx ck target locals r h
                generalize hg : f + 1 = g
                rw [hg] at hpf2 hrec
                simp only [parseMessageLoopF]
                simp [hv, hf, hcard, hpf2, hh, hrec]
              · rename_i hh
                split at h
                · simp at h
                · rename_i rest3 hsk
                  have hrec := ihLoop desc rest3 s2 rowIdx ck target locals r h
                  generalize hg : f + 1 = g
                  rw [hg] at hpf2 hrec
                  simp only [parseMessageLoopF]
                  simp [hv, hf, hcard, hpf2, hh, hsk, hrec]
          · rename_i hcard
            split at h
            · simp at h
            · rename_i handled rest2 s2 hpf
              have hpf2 := ihField field.kind rest _ _ (ck.field (tag >>> 3)) _ _ hpf
              split at h
              · rename_i hh
                have hrec := ihLoop desc rest2 s2 rowIdx ck target _ r h
                generalize hg : f + 1 = g
                rw [hg] at hpf2 hrec
                simp only [parseMessageLoopF]
                simp [hv, hf, hcard, hpf2, hh, hrec]
              · rename_i hh
                split at h
                · simp at h
                · rename_i rest3 hsk
                  have hrec := ihLoop desc rest3 s2 rowIdx ck target _ r h
                  generalize hg : f + 1 = g
                  rw [hg] at hpf2 hrec
                  simp only [parseMessageLoopF]
                  simp [hv, hf, hcard, hpf2, hh, hsk, hrec]
          · rename_i hcard
            split at h
            · simp at h
            · rename_i handled rest2 s2 hpf
              have hpf2 := ihField field.kind rest _ _ (ck.field (tag >>> 3)) _ _ hpf
              split at h
              · rename_i hh
                have hrec := ihLoop desc rest2 s2 rowIdx ck target _ r h
                generalize hg : f + 1 = g
                rw [hg] at hpf2 hrec
                simp only [parseMessageLoopF]
                simp [hv, hf, hcard, hpf2, hh, hrec]
              · rename_i hh
                split at h
                · simp at h
                · rename_i rest3 hsk
                  have hrec := ihLoop desc rest3 s2 rowIdx ck target _ r h
                  generalize hg : f + 1 = g
                  rw [hg] at hpf2 hrec
                  simp only [parseMessageLoopF]
                  simp [hv, hf, hcard, hpf2, hh, hsk, hrec]
    · intro desc bytes s rowIdx ck target r h
      simp only [parseMessageF] at h
      split at h
      · simp at h
      · rename_i s2 locals hl
        have hrec := ihLoop desc bytes s rowIdx ck target ⟨[]⟩ (s2, locals) hl
        generalize hg : f + 1 = g
        rw [hg] at hrec
        simp only [parseMessageF]
        simp [hrec, h]

theorem parseFieldF_mono_le {f g : Nat} (hfg : f ≤ g) (kind : PKind) (bytes : List Nat)
    (s : PState) (rowIdx : Nat) (ck : ColumnKey) (vec : Vec) (r : Bool × List Nat × PState)
    (h : parseFieldF f kind bytes s rowIdx ck vec = .ok r) :
    parseFieldF g kind bytes s rowIdx ck vec = .ok r := by
  induction hfg with
  | refl => exact h
  | step _ ih => exact (parse_fuel_mono _).1 _ _ _ _ _ _ _ ih

/-! State-transport shapes of the leaf writers: each reads only the
bytes, and its whole chunk effect is one writeCell. -/

theorem readString_shape (bytes rest : List Nat) (chunk chunk2 : ChunkState) (vec : Vec)
    (row : Nat) (h : readString bytes chunk vec row = .ok (rest, chunk2)) :
    ∃ sv, chunk2 = chunk.writeCell vec row (.strVal sv) ∧
      ∀ c2 : ChunkState, readString bytes c2 vec row =
        .ok (rest, c2.writeCell vec row (.strVal sv)) := by
  unfold readString at h ⊢
  split at h
  · simp at h
  · rename_i len r0 hm
    split at h
    · simp at h
    · rename_i sv hs
      split at h
      · simp at h
      · rename_i r2 hc
        simp only [Except.ok.injEq, Prod.mk.injEq] at h
        exact ⟨sv, by simp [← h.1, ← h.2], fun c2 => by simp [hm, hs, hc, h.1]⟩

theorem readFixedBytes_shape (n : Nat) (bytes rest : List Nat) (chunk chunk2 : ChunkState)
    (vec : Vec) (row : Nat)
    (h : readFixedBytes n bytes chunk vec row = .ok (rest, chunk2)) :
    ∃ sv, chunk2 = chunk.writeCell vec row (.fixedVal sv) ∧
      ∀ c2 : ChunkState, readFixedBytes n bytes c2 vec row =
        .ok (rest, c2.writeCell vec row (.fixedVal sv)) := by
  unfold readFixedBytes at h ⊢
  split at h
  · simp at h
  · rename_i sv hs
    split at h
    · simp at h
    · rename_i r2 hc
      simp only [Except.ok.injEq, Prod.mk.injEq] at h
      exact ⟨sv, by simp [← h.1, ← h.2], fun c2 => by simp [hs, hc, h.1]⟩

theorem readVarintValue_shape (D : VarintType) (mk : Nat → CellValue) (bytes rest : List Nat)
    (chunk chunk2 : ChunkState) (vec : Vec) (row : Nat)
    (h : readVarintValue D mk bytes chunk vec row = .ok (rest, chunk2)) :
    ∃ v, chunk2 = chunk.writeCell vec row (mk v) ∧
      ∀ c2 : ChunkState, readVarintValue D mk bytes c2 vec row =
        .ok (rest, c2.writeCell vec row (mk v)) := by
  unfold readVarintValue at h ⊢
  split at h
  · simp at h
  · rename_i v r0 hm
    simp only [Except.ok.injEq, Prod.mk.injEq] at h
    exact ⟨v, by simp [← h.1, ← h.2], fun c2 => by simp [hm, h.1]⟩

theorem readBoolValue_shape (bytes rest : List Nat) (chunk chunk2 : ChunkState) (vec : Vec)
    (row : Nat) (h : readBoolValue bytes chunk vec row = .ok (rest, chunk2)) :
    ∃ b, chunk2 = chunk.writeCell vec row (.boolVal b) ∧
      ∀ c2 : ChunkState, readBoolValue bytes c2 vec row =
        .ok (rest, c2.writeCell vec row (.boolVal b)) := by
  unfold readBoolValue at h ⊢
  split at h
  · simp at h
  · rename_i v r0 hm
    simp only [Except.ok.injEq, Prod.mk.injEq] at h
    exact ⟨v != 0, by simp [← h.1, ← h.2], fun c2 => by simp [hm, h.1]⟩

/-- Localization constraint for writes emitted while filling the given
accessor: under a struct vector all writes stay in that vector's
column subtree; the chunk root imposes none. -/
def accessorRootOk (target : VectorAccessor) (op : WriteOp) : Prop :=
  match target with
  | .chunkRoot => True
  | .structVector v => vecRoot (WriteOp.vec op) = vecRoot v

theorem accessorRootOk_of_getVector (target : VectorAccessor) (idx : Nat) (op : WriteOp)
    (h : vecRoot (WriteOp.vec op) = vecRoot (target.getVector idx)) :
    accessorRootOk target op := by
  cases target with
  | chunkRoot => exact trivial
  | structVector v => exact h

/-- The two loop-level writes performed by handle_repeated_field for a
first (and, in every reachable state, only) occurrence: the row list
entry and the list-child resize. -/
def setupOps (outV : Vec) (row off : Nat) : List WriteOp :=
  [.cellW outV row (.listEntry off 1), .sizeW outV (off + 1)]

theorem setupOps_root (outV : Vec) (row off : Nat) :
    ∀ op ∈ setupOps outV row off, vecRoot (WriteOp.vec op) = vecRoot outV := by
  intro op hop
  simp only [setupOps, List.mem_cons, List.not_mem_nil, or_false] at hop
  rcases hop with hop | hop <;> subst hop <;> simp [WriteOp.vec]

theorem handleRepeatedFieldSetup_empty (ps : ParserState) (n : Nat) (outV : Vec) (row : Nat)
    (key : ColumnKey) (chunk : ChunkState) :
    handleRepeatedFieldSetup ps ⟨[]⟩ n outV row key chunk =
      { locals := ⟨[]⟩,
        chunk := applyOps (setupOps outV row ((alGet ps.columnState key).getD 0)) chunk,
        childVector := .listChild outV,
        childRow := (alGet ps.columnState key).getD 0 + 1 - 1 } := by
  simp [handleRepeatedFieldSetup, setupOps, alGet, applyOps, applyOp]

theorem consumeLocalFields_empty (ps : ParserState) (key : ColumnKey) :
    consumeLocalFields ps key ⟨[]⟩ = ps := rfl


/-- Writes-only transport: a successful parse run never changes the
ledger, and its whole chunk effect is a write list determined by the
bytes and the incoming ledger — the same run from any state with the same
ledger succeeds identically and applies the same writes; every write
stays in the column subtree of the vector being filled.  (The locals map
stays empty throughout: the source Vacant arm inserts nothing.) -/
theorem parse_writes_only (fuel : Nat) :
    (∀ kind bytes s rowIdx ck vec handled rest s2,
      parseFieldF fuel kind bytes s rowIdx ck vec = .ok (handled, rest, s2) →
      ∃ ops : List WriteOp,
        (∀ op ∈ ops, vecRoot (WriteOp.vec op) = vecRoot vec) ∧
        (∀ t : PState, t.ps = s.ps →
          parseFieldF fuel kind bytes t rowIdx ck vec =
            .ok (handled, rest, { ps := t.ps, chunk := applyOps ops t.chunk }))) ∧
    (∀ desc bytes s rowIdx ck target s2 locals2,
      parseMessageLoopF fuel desc bytes s rowIdx ck target ⟨[]⟩ = .ok (s2, locals2) →
      locals2 = ⟨[]⟩ ∧
      ∃ ops : List WriteOp,
        (∀ op ∈ ops, accessorRootOk target op) ∧
        (∀ t : PState, t.ps = s.ps →
          parseMessageLoopF fuel desc bytes t rowIdx ck target ⟨[]⟩ =
            .ok ({ ps := t.ps, chunk := applyOps ops t.chunk }, ⟨[]⟩))) ∧
    (∀ desc bytes s rowIdx ck target s2,
      parseMessageF fuel desc bytes s rowIdx ck target = .ok s2 →
      ∃ ops : List WriteOp,
        (∀ op ∈ ops, accessorRootOk target op) ∧
        (∀ t : PState, t.ps = s.ps →
          parseMessageF fuel desc bytes t rowIdx ck target =
            .ok { ps := t.ps, chunk := applyOps ops t.chunk })) := by
  induction fuel with
  | zero =>
    refine ⟨?_, ?_, ?_⟩
    · intro kind bytes s rowIdx ck vec handled rest s2 h
      simp [parseFieldF] at h
    · intro desc bytes s rowIdx ck target s2 locals2 h
      simp [parseMessageLoopF] at h
    · intro desc bytes s rowIdx ck target s2 h
      simp [parseMessageF] at h
  | succ f ih =>
    obtain ⟨ihField, ihLoop, ihMsg⟩ := ih
    refine ⟨?_, ?_, ?_⟩
    · intro kind bytes s rowIdx ck vec handled rest s2 h
      cases kind with
      | message m =>
        simp only [parseFieldF] at h
        split at h
        · simp at h
        · rename_i len r0 hm
          split at h
          · simp at h
          · rename_i sub hs
            split at h
            · simp at h
            · rename_i s3 hp
              split at h
              · simp at h
              · rename_i r2 hc
                simp only [Except.ok.injEq, Prod.mk.injEq] at h
                obtain ⟨h1, h2, h3⟩ := h
                obtain ⟨ops, hroot, htrans⟩ := ihMsg m sub s rowIdx ck (.structVector vec) s3 hp
                refine ⟨ops, fun op hop => hroot op hop, fun t ht => ?_⟩
                simp only [parseFieldF]
                simp [hm, hs, htrans t ht, hc, h1, h2]
      | enumKind ed =>
        simp only [parseFieldF] at h
        split at h
        · simp at h
        · rename_i v r0 hm
          simp only [Except.ok.injEq, Prod.mk.injEq] at h
          obtain ⟨h1, h2, h3⟩ := h
          refine ⟨[.cellW vec rowIdx (.strVal
            ((ed.getValue (if v < 2 ^ 31 then (v : Int) else (v : Int) - 2 ^ 32)).getD
              ed.defaultValue).name)], by simp [WriteOp.vec], fun t ht => ?_⟩
          simp only [parseFieldF]
          simp [hm, h1, h2, applyOps, applyOp]
      | stringKind =>
        simp only [parseFieldF] at h
        split at h
        · simp at h
        · rename_i r0 chunk0 hr
          simp only [Except.ok.injEq, Prod.mk.injEq] at h
          obtain ⟨h1, h2, h3⟩ := h
          obtain ⟨sv, hch, htr⟩ := readString_shape bytes r0 s.chunk chunk0 vec rowIdx hr
          refine ⟨[.cellW vec rowIdx (.strVal sv)], by simp [WriteOp.vec], fun t ht => ?_⟩
          simp only [parseFieldF]
          simp [htr t.chunk, h1, h2, applyOps, applyOp]
      | double =>
        simp only [parseFieldF] at h
        split at h
        · simp at h
        · rename_i r0 chunk0 hr
          simp only [Except.ok.injEq, Prod.mk.injEq] at h
          obtain ⟨h1, h2, h3⟩ := h
          obtain ⟨sv, hch, htr⟩ := readFixedBytes_shape 8 bytes r0 s.chunk chunk0 vec rowIdx hr
          refine ⟨[.cellW vec rowIdx (.fixedVal sv)], by simp [WriteOp.vec], fun t ht => ?_⟩
          simp only [parseFieldF]
          simp [htr t.chunk, h1, h2, applyOps, applyOp]
      | float =>
        simp only [parseFieldF] at h
        split at h
        · simp at h
        · rename_i r0 chunk0 hr
          simp only [Except.ok.injEq, Prod.mk.injEq] at h
          obtain ⟨h1, h2, h3⟩ := h
          obtain ⟨sv, hch, htr⟩ := readFixedBytes_shape 4 bytes r0 s.chunk chunk0 vec rowIdx hr
          refine ⟨[.cellW vec rowIdx (.fixedVal sv)], by simp [WriteOp.vec], fun t ht => ?_⟩
          simp only [parseFieldF]
          simp [htr t.chunk, h1, h2, applyOps, applyOp]
      | int64 =>
        simp only [parseFieldF] at h
        split at h
        · simp at h
        · rename_i r0 chunk0 hr
          simp only [Except.ok.injEq, Prod.mk.injEq] at h
          obtain ⟨h1, h2, h3⟩ := h
          obtain ⟨v, hch, htr⟩ := readVarintValue_shape u64VT CellValue.u64Val bytes r0
            s.chunk chunk0 vec rowIdx hr
          refine ⟨[.cellW vec rowIdx (.u64Val v)], by simp [WriteOp.vec], fun t ht => ?_⟩
          simp only [parseFieldF]
          simp [htr t.chunk, h1, h2, applyOps, applyOp]
      | uint64 =>
        simp only [parseFieldF] at h
        split at h
        · simp at h
        · rename_i r0 chunk0 hr
          simp only [Except.ok.injEq, Prod.mk.injEq] at h
          obtain ⟨h1, h2, h3⟩ := h
          obtain ⟨v, hch, htr⟩ := readVarintValue_shape u64VT CellValue.u64Val bytes r0
            s.chunk chunk0 vec rowIdx hr
          refine ⟨[.cellW vec rowIdx (.u64Val v)], by simp [WriteOp.vec], fun t ht => ?_⟩
          simp only [parseFieldF]
          simp [htr t.chunk, h1, h2, applyOps, applyOp]
      | int32 =>
        simp only [parseFieldF] at h
        split at h
        · simp at h
        · rename_i r0 chunk0 hr
          simp only [Except.ok.injEq, Prod.mk.injEq] at h
          obtain ⟨h1, h2, h3⟩ := h
          obtain ⟨v, hch, htr⟩ := readVarintValue_shape u32VT CellValue.u32Val bytes r0
            s.chunk chunk0 vec rowIdx hr
          refine ⟨[.cellW vec rowIdx (.u32Val v)], by simp [WriteOp.vec], fun t ht => ?_⟩
          simp only [parseFieldF]
          simp [htr t.chunk, h1, h2, applyOps, applyOp]
      | uint32 =>
        simp only [parseFieldF] at h
        split at h
        · simp at h
        · rename_i r0 chunk0 hr
          simp only [Except.ok.injEq, Prod.mk.injEq] at h
          obtain ⟨h1, h2, h3⟩ := h
          obtain ⟨v, hch, htr⟩ := readVarintValue_shape u32VT CellValue.u32Val bytes r0
            s.chunk chunk0 vec rowIdx hr
          refine ⟨[.cellW vec rowIdx (.u32Val v)], by simp [WriteOp.vec], fun t ht => ?_⟩
          simp only [parseFieldF]
          simp [htr t.chunk, h1, h2, applyOps, applyOp]
      | boolKind =>
        simp only [parseFieldF] at h
        split at h
        · simp at h
        · rename_i r0 chunk0 hr
          simp only [Except.ok.injEq, Prod.mk.injEq] at h
          obtain ⟨h1, h2, h3⟩ := h
          obtain ⟨b, hch, htr⟩ := readBoolValue_shape bytes r0 s.chunk chunk0 vec rowIdx hr
          refine ⟨[.cellW vec rowIdx (.boolVal b)], by simp [WriteOp.vec], fun t ht => ?_⟩
          simp only [parseFieldF]
          simp [htr t.chunk, h1, h2, applyOps, applyOp]
      | unsupported =>
        simp only [parseFieldF, Except.ok.injEq, Prod.mk.injEq] at h
        obtain ⟨h1, h2, h3⟩ := h
        refine ⟨[], by simp, fun t ht => ?_⟩
        simp only [parseFieldF]
        simp [h1, h2, applyOps]
    · intro desc bytes s rowIdx ck target s2 locals2 h
      simp only [parseMessageLoopF] at h
      split at h
      · simp at h
      · rename_i hv
        simp only [Except.ok.injEq, Prod.mk.injEq] at h
        refine ⟨h.2.symm, [], by simp, fun t ht => ?_⟩
        simp only [parseMessageLoopF]
        simp [hv, ← h.1, applyOps]
      · rename_i tag rest hv
        split at h
        · rename_i hf
          split at h
          · simp at h
          · rename_i rest2 hsk
            obtain ⟨hloc, ops, hroot, htrans⟩ :=
              ihLoop desc rest2 s rowIdx ck target s2 locals2 h
            refine ⟨hloc, ops, hroot, fun t ht => ?_⟩
            simp only [parseMessageLoopF]
            simp [hv, hf, hsk, htrans t ht]
        · rename_i fieldIdx field hf
          split at h
          · rename_i hcard
            split at h
            · simp at h
            · rename_i handled rest2 s2m hpf
              obtain ⟨ops1, hroot1, htrans1⟩ := ihField field.kind rest s rowIdx
                (ck.field (tag >>> 3)) (target.getVector fieldIdx) handled rest2 s2m hpf
              have hs2m : s2m = { ps := s.ps, chunk := applyOps ops1 s.chunk } := by
                have h0 := htrans1 s rfl
                rw [hpf] at h0
                simpa using h0
              split at h
              · rename_i hh
                obtain ⟨hloc, ops2, hroot2, htrans2⟩ :=
                  ihLoop desc rest2 s2m rowIdx ck target s2 locals2 h
                refine ⟨hloc, ops1 ++ ops2, ?_, fun t ht => ?_⟩
                · intro op hop
                  rcases List.mem_append.mp hop with hop | hop
                  · exact accessorRootOk_of_getVector target fieldIdx op (hroot1 op hop)
                  · exact hroot2 op hop
                · have ht2 := htrans2 { ps := t.ps, chunk := applyOps ops1 t.chunk }
                    (by rw [hs2m]; exact ht)
                  simp only [parseMessageLoopF]
                  simp [hv, hf, hcard, htrans1 t ht, hh, ht2, applyOps_append]
              · rename_i hh
                split at h
                · simp at h
                · rename_i rest3 hsk
                  obtain ⟨hloc, ops2, hroot2, htrans2⟩ :=
                    ihLoop desc rest3 s2m rowIdx ck target s2 locals2 h
                  refine ⟨hloc, ops1 ++ ops2, ?_, fun t ht => ?_⟩
                  · intro op hop
                    rcases List.mem_append.mp hop with hop | hop
                    · exact accessorRootOk_of_getVector target fieldIdx op (hroot1 op hop)
                    · exact hroot2 op hop
                  · have ht2 := htrans2 { ps := t.ps, chunk := applyOps ops1 t.chunk }
                      (by rw [hs2m]; exact ht)
                    simp only [parseMessageLoopF]
                    simp [hv, hf, hcard, htrans1 t ht, hh, hsk, ht2, applyOps_append]
          · rename_i hcard
            split at h
            · simp at h
            · rename_i handled rest2 s2m hpf
              obtain ⟨ops1, hroot1, htrans1⟩ := ihField field.kind rest s rowIdx
                (ck.field (tag >>> 3)) (target.getVector fieldIdx) handled rest2 s2m hpf
              have hs2m : s2m = { ps := s.ps, chunk := applyOps ops1 s.chunk } := by
                have h0 := htrans1 s rfl
                rw [hpf] at h0
                simpa using h0
              split at h
              · rename_i hh
                obtain ⟨hloc, ops2, hroot2, htrans2⟩ :=
                  ihLoop desc rest2 s2m rowIdx ck target s2 locals2 h
                refine ⟨hloc, ops1 ++ ops2, ?_, fun t ht => ?_⟩
                · intro op hop
                  rcases List.mem_append.mp hop with hop | hop
                  · exact accessorRootOk_of_getVector target fieldIdx op (hroot1 op hop)
                  · exact hroot2 op hop
                · have ht2 := htrans2 { ps := t.ps, chunk := applyOps ops1 t.chunk }
                    (by rw [hs2m]; exact ht)
                  simp only [parseMessageLoopF]
                  simp [hv, hf, hcard, htrans1 t ht, hh, ht2, applyOps_append]
              · rename_i hh
                split at h
                · simp at h
                · rename_i rest3 hsk
                  obtain ⟨hloc, ops2, hroot2, htrans2⟩ :=
                    ihLoop desc rest3 s2m rowIdx ck target s2 locals2 h
                  refine ⟨hloc, ops1 ++ ops2, ?_, fun t ht => ?_⟩
                  · intro op hop
                    rcases List.mem_append.mp hop with hop | hop
                    · exact accessorRootOk_of_getVector target fieldIdx op (hroot1 op hop)
                    · exact hroot2 op hop
                  · have ht2 := htrans2 { ps := t.ps, chunk := applyOps ops1 t.chunk }
                      (by rw [hs2m]; exact ht)
                    simp only [parseMessageLoopF]
                    simp [hv, hf, hcard, htrans1 t ht, hh, hsk, ht2, applyOps_append]
          · rename_i hcard
            rw [handleRepeatedFieldSetup_empty] at h
            simp only [Nat.add_sub_cancel] at h
            split at h
            · simp at h
            · rename_i handled rest2 s2m hpf
              obtain ⟨ops1, hroot1, htrans1⟩ := ihField field.kind rest
                { ps := s.ps, chunk := applyOps (setupOps (target.getVector fieldIdx) rowIdx
                    ((alGet s.ps.columnState (ck.field (tag >>> 3))).getD 0)) s.chunk }
                ((alGet s.ps.columnState (ck.field (tag >>> 3))).getD 0)
                (ck.field (tag >>> 3)) (.listChild (target.getVector fieldIdx))
                handled rest2 s2m hpf
              have hs2m : s2m =
                  { ps := s.ps,
                    chunk := applyOps ops1 (applyOps (setupOps (target.getVector fieldIdx)
                      rowIdx ((alGet s.ps.columnState (ck.field (tag >>> 3))).getD 0))
                      s.chunk) } := by
                have h0 := htrans1 _ rfl
                rw [hpf] at h0
                simpa using h0
              split at h
              · rename_i hh
                obtain ⟨hloc, ops2, hroot2, htrans2⟩ :=
                  ihLoop desc rest2 s2m rowIdx ck target s2 locals2 h
                refine ⟨hloc, setupOps (target.getVector fieldIdx) rowIdx
                    ((alGet s.ps.columnState (ck.field (tag >>> 3))).getD 0) ++
                    (ops1 ++ ops2), ?_, fun t ht => ?_⟩
                · intro op hop
                  rcases List.mem_append.mp hop with hop | hop
                  · exact accessorRootOk_of_getVector target fieldIdx op
                      (setupOps_root _ _ _ op hop)
                  · rcases List.mem_append.mp hop with hop | hop
                    · exact accessorRootOk_of_getVector target fieldIdx op
                        (by simpa [vecRoot] using hroot1 op hop)
                    · exact hroot2 op hop
                · have ht1 := htrans1
                    { ps := s.ps,
                      chunk := applyOps (setupOps (target.getVector fieldIdx) rowIdx
                        ((alGet s.ps.columnState (ck.field (tag >>> 3))).getD 0)) t.chunk } rfl
                  have ht2 := htrans2
                    { ps := s.ps,
                      chunk := applyOps ops1 (applyOps (setupOps (target.getVector fieldIdx)
                        rowIdx ((alGet s.ps.columnState (ck.field (tag >>> 3))).getD 0))
                        t.chunk) } (by rw [hs2m])
                  simp only [parseMessageLoopF]
                  simp [hv, hf, hcard, handleRepeatedFieldSetup_empty, ht, ht1, hh, ht2,
                    applyOps_append]
              · rename_i hh
                split at h
                · simp at h
                · rename_i rest3 hsk
                  obtain ⟨hloc, ops2, hroot2, htrans2⟩ :=
                    ihLoop desc rest3 s2m rowIdx ck target s2 locals2 h
                  refine ⟨hloc, setupOps (target.getVector fieldIdx) rowIdx
                      ((alGet s.ps.columnState (ck.field (tag >>> 3))).getD 0) ++
                      (ops1 ++ ops2), ?_, fun t ht => ?_⟩
                  · intro op hop
                    rcases List.mem_append.mp hop with hop | hop
                    · exact accessorRootOk_of_getVector target fieldIdx op
                        (setupOps_root _ _ _ op hop)
                    · rcases List.mem_append.mp hop with hop | hop
                      · exact accessorRootOk_of_getVector target fieldIdx op
                          (by simpa [vecRoot] using hroot1 op hop)
                      · exact hroot2 op hop
                  · have ht1 := htrans1
                      { ps := s.ps,
                        chunk := applyOps (setupOps (target.getVector fieldIdx) rowIdx
                          ((alGet s.ps.columnState (ck.field (tag >>> 3))).getD 0)) t.chunk } rfl
                    have ht2 := htrans2
                      { ps := s.ps,
                        chunk := applyOps ops1 (applyOps (setupOps (target.getVector fieldIdx)
                          rowIdx ((alGet s.ps.columnState (ck.field (tag >>> 3))).getD 0))
                          t.chunk) } (by rw [hs2m])
                    simp only [parseMessageLoopF]
                    simp [hv, hf, hcard, handleRepeatedFieldSetup_empty, ht, ht1, hh, hsk, ht2,
                      applyOps_append]
    · intro desc bytes s rowIdx ck target s2 h
      simp only [parseMessageF] at h
      split at h
      · simp at h
      · rename_i s2m localsr hl
        obtain ⟨hloc, ops, hroot, htrans⟩ := ihLoop desc bytes s rowIdx ck target s2m localsr hl
        refine ⟨ops, hroot, fun t ht => ?_⟩
        simp only [parseMessageF]
        simp [htrans t ht, consumeLocalFields_empty, h]

/-! ### Occurrence chunks

A wire encoding of a message is a concatenation of field occurrences
(tag varint followed by the value bytes).  occOk checks — executably —
that a byte chunk is exactly one well-formed occurrence of a field known
to the descriptor, from the canonical per-chunk initial state (the ledger
is empty at chunk start and, with this code, never written).
-/

/-- Fuel under which one occurrence is checked; one less than the
enclosing canonical loop fuel, matching what the loop hands down. -/
def fcheck (c : List Nat) : Nat := 4 * c.length + 4

/-- A parse_field run that handled the field and consumed its whole
input. -/
def fieldRunOk (res : Except Failure (Bool × List Nat × PState)) : Bool :=
  match res with
  | .ok (true, [], _) => true
  | _ => false

theorem fieldRunOk_spec (res : Except Failure (Bool × List Nat × PState))
    (h : fieldRunOk res = true) : ∃ s2, res = .ok (true, [], s2) := by
  unfold fieldRunOk at h
  split at h
  · rename_i s2
    exact ⟨s2, rfl⟩
  · simp at h

def occOk (desc : MessageDescriptor) (rowIdx : Nat) (c : List Nat) : Bool :=
  match ctxReadVarint u32VT c with
  | .ok (some (tag, rest)) =>
    match desc.findField (tag >>> 3) with
    | some (fieldIdx, field) =>
      match field.card with
      | .optional | .required =>
        fieldRunOk (parseFieldF (fcheck c) field.kind rest
          { ps := ParserState.new, chunk := ChunkState.empty } rowIdx
          (ColumnKey.empty.field (tag >>> 3))
          (VectorAccessor.chunkRoot.getVector fieldIdx))
      | .repeated =>
        fieldRunOk (parseFieldF (fcheck c) field.kind rest
          { ps := ParserState.new, chunk := ChunkState.empty } 0
          (ColumnKey.empty.field (tag >>> 3))
          (Vec.listChild (VectorAccessor.chunkRoot.getVector fieldIdx)))
    | none => false
  | _ => false

/-- The chunk column index of the occurrence's field. -/
def occFieldIdx (desc : MessageDescriptor) (c : List Nat) : Nat :=
  match ctxReadVarint u32VT c with
  | .ok (some (tag, _)) =>
    match desc.findField (tag >>> 3) with
    | some (fieldIdx, _) => fieldIdx
    | none => 0
  | _ => 0

/-- The field number carried by the occurrence's tag. -/
def occFieldNumber (c : List Nat) : Nat :=
  match ctxReadVarint u32VT c with
  | .ok (some (tag, _)) => tag >>> 3
  | _ => 0

theorem findField_number (d : MessageDescriptor) (n i : Nat) (f : FieldDesc)
    (h : d.findField n = some (i, f)) : f.number = n := by
  have hp := List.find?_some h
  simpa using hp

theorem findField_getElem (d : MessageDescriptor) (n i : Nat) (f : FieldDesc)
    (h : d.findField n = some (i, f)) : d.fields[i]? = some f := by
  have hmem := List.mem_of_find?_eq_some h
  exact List.mem_enum_iff_getElem?.mp hmem

/-- Occurrences of different field numbers land in different chunk
columns: findField returns the index of a field carrying the queried
number, and one index carries one field. -/
theorem findField_idx_ne (d : MessageDescriptor) (n1 n2 i1 i2 : Nat) (f1 f2 : FieldDesc)
    (h1 : d.findField n1 = some (i1, f1)) (h2 : d.findField n2 = some (i2, f2))
    (hne : n1 ≠ n2) : i1 ≠ i2 := by
  intro he
  have g1 := findField_getElem d n1 i1 f1 h1
  have g2 := findField_getElem d n2 i2 f2 h2
  rw [he, g2] at g1
  have : f2 = f1 := by simpa using g1
  exact hne (by rw [← findField_number d n1 i1 f1 h1, ← findField_number d n2 i2 f2 h2, ← this])

theorem occOk_length_pos (desc : MessageDescriptor) (rowIdx : Nat) (c : List Nat)
    (h : occOk desc rowIdx c = true) : 1 ≤ c.length := by
  unfold occOk at h
  split at h
  · rename_i tag rest hv
    unfold ctxReadVarint at hv
    split at hv
    · simp at hv
    · simp at hv
    · rename_i v0 cc hd
      have := decodeVarint_consumed u32VT c v0 cc hd
      omega
  · simp at h

/-- One valid occurrence at the head of the loop input: its whole effect
is a write list on its own chunk column, and the loop continues on the
remaining bytes with the ledger untouched. -/
theorem occ_step (desc : MessageDescriptor) (rowIdx : Nat) (c : List Nat)
    (hocc : occOk desc rowIdx c = true) :
    ∃ ops : List WriteOp,
      (∀ op ∈ ops, vecRoot (WriteOp.vec op) = occFieldIdx desc c) ∧
      ∀ g, fcheck c ≤ g → ∀ (rest : List Nat) (s : PState), s.ps = ParserState.new →
        parseMessageLoopF (g + 1) desc (c ++ rest) s rowIdx ColumnKey.empty .chunkRoot ⟨[]⟩ =
          parseMessageLoopF g desc rest { ps := s.ps, chunk := applyOps ops s.chunk }
            rowIdx ColumnKey.empty .chunkRoot ⟨[]⟩ := by
  unfold occOk at hocc
  split at hocc
  · rename_i tag ctail hv
    split at hocc
    · rename_i fieldIdx field hf
      have hidx : occFieldIdx desc c = fieldIdx := by
        simp [occFieldIdx, hv, hf]
      split at hocc
      · rename_i hcard
        obtain ⟨send, hpf⟩ := fieldRunOk_spec _ hocc
        obtain ⟨ops1, hroot1, htrans1⟩ := (parse_writes_only (fcheck c)).1 field.kind ctail
          { ps := ParserState.new, chunk := ChunkState.empty } rowIdx
          (ColumnKey.empty.field (tag >>> 3)) (VectorAccessor.chunkRoot.getVector fieldIdx)
          true [] send hpf
        refine ⟨ops1, ?_, ?_⟩
        · intro op hop
          rw [hidx]
          simpa [VectorAccessor.getVector, vecRoot] using hroot1 op hop
        · intro g hg rest s hs
          have hvx := ctxReadVarint_append u32VT (by norm_num [u32VT]) c rest ctail tag hv
          have hpf2 := htrans1 s (by simpa using hs)
          have hpf3 := parseFieldF_append (fcheck c) field.kind ctail rest [] s
            { ps := s.ps, chunk := applyOps ops1 s.chunk } rowIdx
            (ColumnKey.empty.field (tag >>> 3)) (VectorAccessor.chunkRoot.getVector fieldIdx)
            true hpf2
          have hpf4 := parseFieldF_mono_le hg field.kind (ctail ++ rest) s rowIdx
            (ColumnKey.empty.field (tag >>> 3)) (VectorAccessor.chunkRoot.getVector fieldIdx)
            _ hpf3
          simp only [List.nil_append] at hpf4
          simp only [parseMessageLoopF]
          simp [hvx, hf, hcard, hpf4]
      · rename_i hcard
        obtain ⟨send, hpf⟩ := fieldRunOk_spec _ hocc
        obtain ⟨ops1, hroot1, htrans1⟩ := (parse_writes_only (fcheck c)).1 field.kind ctail
          { ps := ParserState.new, chunk := ChunkState.empty } rowIdx
          (ColumnKey.empty.field (tag >>> 3)) (VectorAccessor.chunkRoot.getVector fieldIdx)
          true [] send hpf
        refine ⟨ops1, ?_, ?_⟩
        · intro op hop
          rw [hidx]
          simpa [VectorAccessor.getVector, vecRoot] using hroot1 op hop
        · intro g hg rest s hs
          have hvx := ctxReadVarint_append u32VT (by norm_num [u32VT]) c rest ctail tag hv
          have hpf2 := htrans1 s (by simpa using hs)
          have hpf3 := parseFieldF_append (fcheck c) field.kind ctail rest [] s
            { ps := s.ps, chunk := applyOps ops1 s.chunk } rowIdx
            (ColumnKey.empty.field (tag >>> 3)) (VectorAccessor.chunkRoot.getVector fieldIdx)
            true hpf2
          have hpf4 := parseFieldF_mono_le hg field.kind (ctail ++ rest) s rowIdx
            (ColumnKey.empty.field (tag >>> 3)) (VectorAccessor.chunkRoot.getVector fieldIdx)
            _ hpf3
          simp only [List.nil_append] at hpf4
          simp only [parseMessageLoopF]
          simp [hvx, hf, hcard, hpf4]
      · rename_i hcard
        obtain ⟨send, hpf⟩ := fieldRunOk_spec _ hocc
        obtain ⟨ops1, hroot1, htrans1⟩ := (parse_writes_only (fcheck c)).1 field.kind ctail
          { ps := ParserState.new, chunk := ChunkState.empty } 0
          (ColumnKey.empty.field (tag >>> 3))
          (Vec.listChild (VectorAccessor.chunkRoot.getVector fieldIdx)) true [] send hpf
        refine ⟨setupOps (VectorAccessor.chunkRoot.getVector fieldIdx) rowIdx 0 ++ ops1,
          ?_, ?_⟩
        · intro op hop
          rw [hidx]
          rcases List.mem_append.mp hop with hop | hop
          · simpa [VectorAccessor.getVector, vecRoot] using
              setupOps_root (VectorAccessor.chunkRoot.getVector fieldIdx) rowIdx 0 op hop
          · simpa [VectorAccessor.getVector, vecRoot] using hroot1 op hop
        · intro g hg rest s hs
          have hvx := ctxReadVarint_append u32VT (by norm_num [u32VT]) c rest ctail tag hv
          have hpf2 := htrans1
            { ps := s.ps, chunk := applyOps
                (setupOps (VectorAccessor.chunkRoot.getVector fieldIdx) rowIdx 0) s.chunk }
            (by simpa using hs)
          have hpf3 := parseFieldF_append (fcheck c) field.kind ctail rest []
            { ps := s.ps, chunk := applyOps
                (setupOps (VectorAccessor.chunkRoot.getVector fieldIdx) rowIdx 0) s.chunk }
            { ps := s.ps, chunk := applyOps ops1 (applyOps
                (setupOps (VectorAccessor.chunkRoot.getVector fieldIdx) rowIdx 0) s.chunk) } 0
            (ColumnKey.empty.field (tag >>> 3))
            (Vec.listChild (VectorAccessor.chunkRoot.getVector fieldIdx)) true hpf2
          have hpf4 := parseFieldF_mono_le hg field.kind (ctail ++ rest)
            { ps := s.ps, chunk := applyOps
                (setupOps (VectorAccessor.chunkRoot.getVector fieldIdx) rowIdx 0) s.chunk } 0
            (ColumnKey.empty.field (tag >>> 3))
            (Vec.listChild (VectorAccessor.chunkRoot.getVector fieldIdx)) _ hpf3
          simp only [List.nil_append, hs, ParserState.new] at hpf4
          simp only [parseMessageLoopF]
          simp [hvx, hf, hcard, handleRepeatedFieldSetup_empty, hs, ParserState.new, alGet,
            hpf4, applyOps_append]
    · simp at hocc
  all_goals simp at hocc

/-- Nonempty chunks: a chunk list is no longer than its flattening. -/
theorem chunks_length_le (cs : List (List Nat)) (h : ∀ c ∈ cs, 1 ≤ c.length) :
    cs.length ≤ cs.flatten.length := by
  induction cs with
  | nil => simp
  | cons d cs ih =>
    have hd := h d (by simp)
    have hcs := ih (fun e he => h e (by simp [he]))
    simp only [List.flatten_cons, List.length_append, List.length_cons]
    omega

/-- Per-chunk length bound inside a list of nonempty chunks. -/
theorem mem_chunk_bound (cs : List (List Nat)) (h : ∀ c ∈ cs, 1 ≤ c.length) :
    ∀ c ∈ cs, c.length + cs.length ≤ cs.flatten.length + 1 := by
  induction cs with
  | nil => intro c hc; simp at hc
  | cons d cs ih =>
    intro c hc
    rcases List.mem_cons.mp hc with rfl | hc
    · have := chunks_length_le cs (fun e he => h e (by simp [he]))
      simp only [List.flatten_cons, List.length_append, List.length_cons]
      omega
    · have hd1 := h d (by simp)
      have := ih (fun e he => h e (by simp [he])) c hc
      simp only [List.flatten_cons, List.length_append, List.length_cons]
      omega

/-- Valid occurrences of different field numbers land in different chunk
columns. -/
theorem occFieldIdx_ne (desc : MessageDescriptor) (rowIdx : Nat) (c1 c2 : List Nat)
    (h1 : occOk desc rowIdx c1 = true) (h2 : occOk desc rowIdx c2 = true)
    (hne : occFieldNumber c1 ≠ occFieldNumber c2) :
    occFieldIdx desc c1 ≠ occFieldIdx desc c2 := by
  unfold occOk at h1 h2
  split at h1
  · rename_i tag1 r1 hv1
    split at h1
    · rename_i i1 f1 hf1
      split at h2
      · rename_i tag2 r2 hv2
        split at h2
        · rename_i i2 f2 hf2
          have hn1 : occFieldNumber c1 = tag1 >>> 3 := by simp [occFieldNumber, hv1]
          have hn2 : occFieldNumber c2 = tag2 >>> 3 := by simp [occFieldNumber, hv2]
          have hi1 : occFieldIdx desc c1 = i1 := by simp [occFieldIdx, hv1, hf1]
          have hi2 : occFieldIdx desc c2 = i2 := by simp [occFieldIdx, hv2, hf2]
          rw [hi1, hi2]
          exact findField_idx_ne desc (tag1 >>> 3) (tag2 >>> 3) i1 i2 f1 f2 hf1 hf2
            (by rw [← hn1, ← hn2]; exact hne)
        · simp at h2
      all_goals simp at h2
    · simp at h1
  all_goals simp at h1

/-- Peeling a prefix of valid occurrences off the loop input: the loop
crosses them (one fuel unit each), lands in some state with the ledger
still fresh, and that state does not depend on the remaining bytes. -/
theorem occs_prefix (desc : MessageDescriptor) (rowIdx : Nat) :
    ∀ (cs : List (List Nat)) (g : Nat) (s : PState),
      (∀ c ∈ cs, occOk desc rowIdx c = true) → s.ps = ParserState.new →
      (∀ c ∈ cs, fcheck c + cs.length ≤ g + 1) →
      ∃ t : PState, t.ps = ParserState.new ∧
        ∀ rest : List Nat,
          parseMessageLoopF (g + cs.length) desc (cs.flatten ++ rest) s rowIdx
              ColumnKey.empty .chunkRoot ⟨[]⟩ =
            parseMessageLoopF g desc rest t rowIdx ColumnKey.empty .chunkRoot ⟨[]⟩ := by
  intro cs
  induction cs with
  | nil =>
    intro g s _ hs _
    exact ⟨s, hs, fun rest => by simp⟩
  | cons c cs ih =>
    intro g s hok hs hfe
    obtain ⟨ops, _, hstep⟩ := occ_step desc rowIdx c (hok c (by simp))
    obtain ⟨t, ht, hloop⟩ := ih g { ps := s.ps, chunk := applyOps ops s.chunk }
      (fun d hd => hok d (by simp [hd]))
      (by simpa using hs)
      (fun d hd => by
        have := hfe d (by simp [hd])
        simp only [List.length_cons] at this
        omega)
    refine ⟨t, ht, fun rest => ?_⟩
    have h1 := hstep (g + cs.length)
      (by
        have := hfe c (by simp)
        simp only [List.length_cons] at this
        omega)
      (cs.flatten ++ rest) s hs
    have h2 := hloop rest
    rw [List.flatten_cons, List.append_assoc]
    exact h1.trans h2

/-- One adjacent transposition of two occurrences carrying different
field numbers.  Its reflexive-transitive closure is exactly "the two
occurrence sequences differ only in the order in which (distinct) fields
appear": occurrences of one and the same field keep their relative
order. -/
inductive FieldOrderSwap : List (List Nat) → List (List Nat) → Prop
  | swap (pre post : List (List Nat)) (c1 c2 : List Nat)
      (hne : occFieldNumber c1 ≠ occFieldNumber c2) :
      FieldOrderSwap (pre ++ c1 :: c2 :: post) (pre ++ c2 :: c1 :: post)

theorem fieldOrderSwap_mem {A B : List (List Nat)} (h : FieldOrderSwap A B) :
    ∀ c, c ∈ B → c ∈ A := by
  cases h with
  | swap pre post c1 c2 hne =>
    intro c hc
    simp only [List.mem_append, List.mem_cons] at hc ⊢
    tauto

theorem fieldOrderSwap_rtg_mem {A B : List (List Nat)}
    (h : Relation.ReflTransGen FieldOrderSwap A B) : ∀ c, c ∈ B → c ∈ A := by
  induction h with
  | refl => exact fun c hc => hc
  | tail _ hstep ih => exact fun c hc => ih c (fieldOrderSwap_mem hstep c hc)

/-- One adjacent swap of two valid occurrences of different fields does
not change the projector's output. -/
theorem parse_swap (desc : MessageDescriptor) (rowIdx : Nat) (A B : List (List Nat))
    (hsw : FieldOrderSwap A B)
    (hok : ∀ c ∈ A, occOk desc rowIdx c = true) :
    parseMessage desc A.flatten initialPState rowIdx =
      parseMessage desc B.flatten initialPState rowIdx := by
  cases hsw with
  | swap pre post c1 c2 hne =>
    have hok1 : occOk desc rowIdx c1 = true := hok c1 (by simp)
    have hok2 : occOk desc rowIdx c2 = true := hok c2 (by simp)
    have hokpre : ∀ c ∈ pre, occOk desc rowIdx c = true :=
      fun c hc => hok c (by simp [hc])
    have hlen1 : 1 ≤ c1.length := occOk_length_pos desc rowIdx c1 hok1
    have hlen2 : 1 ≤ c2.length := occOk_length_pos desc rowIdx c2 hok2
    have hprelen : pre.length ≤ pre.flatten.length :=
      chunks_length_le pre (fun c hc => occOk_length_pos desc rowIdx c (hokpre c hc))
    have hdA : (pre ++ c1 :: c2 :: post).flatten =
        pre.flatten ++ (c1 ++ (c2 ++ post.flatten)) := by
      simp [List.flatten_append]
    have hdB : (pre ++ c2 :: c1 :: post).flatten =
        pre.flatten ++ (c2 ++ (c1 ++ post.flatten)) := by
      simp [List.flatten_append]
    have hLAsum : (pre ++ c1 :: c2 :: post).flatten.length =
        pre.flatten.length + c1.length + c2.length + post.flatten.length := by
      rw [hdA]
      simp [List.length_append]
      omega
    have hLBsum : (pre ++ c2 :: c1 :: post).flatten.length =
        pre.flatten.length + c1.length + c2.length + post.flatten.length := by
      rw [hdB]
      simp [List.length_append]
      omega
    obtain ⟨g2, hg2⟩ : ∃ g2,
        4 * (pre ++ c1 :: c2 :: post).flatten.length + 5 = (g2 + 2) + pre.length := by
      refine ⟨4 * (pre ++ c1 :: c2 :: post).flatten.length + 3 - pre.length, ?_⟩
      rw [hLAsum]
      omega
    rw [hLAsum] at hg2
    have hfe : ∀ c ∈ pre, fcheck c + pre.length ≤ (g2 + 2) + 1 := by
      intro c hc
      have hb := mem_chunk_bound pre
        (fun d hd => occOk_length_pos desc rowIdx d (hokpre d hd)) c hc
      simp only [fcheck]
      omega
    obtain ⟨t, ht, hpre⟩ := occs_prefix desc rowIdx pre (g2 + 2) initialPState hokpre rfl hfe
    obtain ⟨ops1, hr1, hstep1⟩ := occ_step desc rowIdx c1 hok1
    obtain ⟨ops2, hr2, hstep2⟩ := occ_step desc rowIdx c2 hok2
    have hf1 : fcheck c1 ≤ g2 := by
      simp only [fcheck]
      omega
    have hf2 : fcheck c2 ≤ g2 := by
      simp only [fcheck]
      omega
    have hstates : applyOps ops2 (applyOps ops1 t.chunk) =
        applyOps ops1 (applyOps ops2 t.chunk) :=
      applyOps_comm t.chunk ops1 ops2 (occFieldIdx desc c1) (occFieldIdx desc c2)
        (occFieldIdx_ne desc rowIdx c1 c2 hok1 hok2 hne) hr1 hr2
    have hA := (hpre (c1 ++ (c2 ++ post.flatten))).trans
      ((hstep1 (g2 + 1) (Nat.le_succ_of_le hf1) (c2 ++ post.flatten) t ht).trans
        (hstep2 g2 hf2 post.flatten { ps := t.ps, chunk := applyOps ops1 t.chunk }
          (by simpa using ht)))
    have hB := (hpre (c2 ++ (c1 ++ post.flatten))).trans
      ((hstep2 (g2 + 1) (Nat.le_succ_of_le hf2) (c1 ++ post.flatten) t ht).trans
        (hstep1 g2 hf1 post.flatten { ps := t.ps, chunk := applyOps ops2 t.chunk }
          (by simpa using ht)))
    have hfinal : parseMessageLoopF ((g2 + 2) + pre.length) desc
        ((pre ++ c1 :: c2 :: post).flatten) initialPState rowIdx
          ColumnKey.empty .chunkRoot ⟨[]⟩ =
        parseMessageLoopF ((g2 + 2) + pre.length) desc
          ((pre ++ c2 :: c1 :: post).flatten) initialPState rowIdx
          ColumnKey.empty .chunkRoot ⟨[]⟩ := by
      rw [hdA, hdB, hA, hB]
      simp [hstates]
    have hfuel : fuelFor (pre ++ c2 :: c1 :: post).flatten =
        fuelFor (pre ++ c1 :: c2 :: post).flatten := by
      simp only [fuelFor, hLAsum, hLBsum]
    have hF : fuelFor (pre ++ c1 :: c2 :: post).flatten = ((g2 + 2) + pre.length) + 1 := by
      simp only [fuelFor, hLAsum]
      omega
    unfold parseMessage
    rw [hfuel, hF]
    simp only [parseMessageF]
    rw [hfinal]

/-- Two-field schema (optional string tag 1, optional int32 tag 2) for a
concrete field-order-swap instance. -/
def twoFieldDesc : MessageDescriptor :=
  .mk [.mk 1 .optional .stringKind, .mk 2 .optional .int32]

/-- C9: for every message descriptor and every pair of valid wire
encodings of the same message that differ only in the order in which
fields appear — formalised as two sequences of valid single-field
occurrence chunks related by transpositions of adjacent occurrences of
different field numbers, which preserve each field's own occurrence
order — projecting each encoding produces identical output (the same
parse_message result, hence the same values in every scalar, struct and
list column, and the same ledger). -/
theorem c9_field_order_invariance (desc : MessageDescriptor) (rowIdx : Nat)
    (A B : List (List Nat))
    (hok : ∀ c ∈ A, occOk desc rowIdx c = true)
    (hswaps : Relation.ReflTransGen FieldOrderSwap A B) :
    parseMessage desc A.flatten initialPState rowIdx =
      parseMessage desc B.flatten initialPState rowIdx := by
  induction hswaps with
  | refl => rfl
  | tail hAB' hstep ih =>
    rename_i B' B
    exact ih.trans (parse_swap desc rowIdx B' B hstep
      (fun c hc => hok c (fieldOrderSwap_rtg_mem hAB' c hc)))

theorem c9_field_order_invariance_witness :
    (∀ c ∈ [[0x0A, 0x01, 0x61], [0x10, 0x07]], occOk twoFieldDesc 0 c = true) ∧
    parseMessage twoFieldDesc
        ([[0x0A, 0x01, 0x61], [0x10, 0x07]] : List (List Nat)).flatten initialPState 0 =
      parseMessage twoFieldDesc
        ([[0x10, 0x07], [0x0A, 0x01, 0x61]] : List (List Nat)).flatten initialPState 0 :=
  ⟨by decide,
    c9_field_order_invariance twoFieldDesc 0
      [[0x0A, 0x01, 0x61], [0x10, 0x07]] [[0x10, 0x07], [0x0A, 0x01, 0x61]]
      (by decide)
      (Relation.ReflTransGen.single
        (FieldOrderSwap.swap [] [] [0x0A, 0x01, 0x61] [0x10, 0x07] (by decide)))⟩
